import Mathlib

/-!
# Shallow embedding of the gas-station discrete-event simulation

This file embeds the simulation engine of `src/simulation.py` into Lean:
the service-time model (`calculate_service_time`), the assignment policy
(`find_best_column`), the per-column state machine (`start_service`,
`process_arrival`, `process_departure`) and the event-driven run loop
(`run_simulation`), together with theorems checking the natural-language
specification against these definitions.

Modelling conventions:
* Python dictionaries become structures with the same field names.
* The `heapq` priority queue of `(time, counter, kind, payload)` tuples
  becomes a list kept sorted by the strict lexicographic key
  `(time, counter)`; since every pushed event carries a fresh, strictly
  increasing counter, keys are totally ordered and popping the head of
  the sorted list is exactly `heappop`.
* The global random stream (`random.choice([-1, 0, 1])`) becomes an
  explicit stream `Nat → Int` together with an index `rngIdx` in the
  simulation state; each call of the service-time model consumes the
  draw at the current index and advances the index by one, mirroring
  one `random.choice` call.
* `math.ceil(q / rate)` on positive integers is embedded as the exact
  integer ceiling `(q + rate - 1) / rate` (exact for all quantities
  representable without floating-point rounding).
* The Python loop terminates because every pushed departure lies
  strictly in the future; the embedding makes recursion structural by
  adding a fuel parameter.  All invariants below are proved for every
  fuel value, hence in particular for any terminating run.
* Ghost instrumentation (fields that the Python state does not carry,
  added only so that theorems can speak about the run's history):
  `arrivalsProcessed` counts processed arrival events, `trace` records
  the `(time, counter, kind)` of every processed event, `svcLog` records
  the `(column, start, finish)` of every started service, and `overflow`
  receives the event popped by the horizon check (Python pops it and
  breaks; we keep it so that discarded events remain speakable).
  None of these influence the simulated behaviour.
-/

namespace GasStation

/-! ## Definitions -/

/-- Modelled from the spec: the daily horizon in minutes
(`constants.MINUTES_IN_DAY`; the `constants` module is not among the
provided sources, and §4.4 of the spec gives the fixed constant 1440). -/
def MINUTES_IN_DAY : Nat := 1440

/-- Modelled from the spec: the fixed dispensing rate in liters per minute
(`constants.REFUELING_RATE`; the §8 scenarios of the spec give 10 L/min). -/
def REFUELING_RATE : Nat := 10

/-- Modelled from the spec: the enumerated set of valid fuel-type codes
(`constants.VALID_GASOLINE_TYPES`; §3 of the spec and the source
docstrings name the codes 92, 95, 98). -/
def VALID_GASOLINE_TYPES : List String := ["92", "95", "98"]

/-- Function `calculate_service_time` of `simulation.py`: ceiling of
`fuel_amount / REFUELING_RATE` plus a jitter drawn from the random
stream (the caller passes the draw), clamped to a minimum of 1. -/
def calculate_service_time (fuel_amount : Nat) (variation : Int) : Nat :=
  let base_time : Nat := (fuel_amount + REFUELING_RATE - 1) / REFUELING_RATE
  (max 1 ((base_time : Int) + variation)).toNat

/-- A parsed request record as produced by `read_input` in
`file_operations.py`: arrival time string, quantity, fuel type, and
arrival minute since midnight. -/
structure InputClient where
  time : String
  value : Nat
  fuel_type : String
  minutes : Nat
deriving DecidableEq, Repr

/-- The queue-entry dictionary built in `process_arrival`. -/
structure QueueClient where
  time : String
  arrival_minutes : Nat
  amount : Nat
  fuel_type : String
  service_time : Nat
  column : Nat
deriving DecidableEq, Repr

/-- A column definition as produced by `read_fuel_info`. -/
structure ColumnInfo where
  column_number : Nat
  max_workload : Nat
  fuel_type : List String
deriving DecidableEq, Repr

/-- The per-column mutable record built by `prepare_columns_data`.
`sales_by_brand` is the brand-to-liters dictionary, embedded as an
association list over the valid gasoline types. -/
structure Column where
  number : Nat
  max_queue : Nat
  fuel_types : List String
  queue : List QueueClient
  current_client : Option QueueClient
  time_free : Nat
  total_liters_sold : Nat
  clients_served : Nat
  sales_by_brand : List (String × Nat)
  max_queue_observed : Nat
deriving DecidableEq, Repr

/-- The update `sales_by_brand[k] += v` on the association list (the key is always
present for validated fuel types, matching the Python dictionary). -/
def updBrand (l : List (String × Nat)) (k : String) (v : Nat) :
    List (String × Nat) :=
  l.map fun p => if p.1 = k then (p.1, p.2 + v) else p

/-- One step of the stable insertion sort used to embed
`sorted(columns, key=lambda x: x['number'])`. -/
def insertByNumber (c : Column) : List Column → List Column
  | [] => [c]
  | d :: ds => if c.number < d.number then c :: d :: ds else d :: insertByNumber c ds

/-- Stable sort of columns by `number` (equal keys keep input order,
as Python's stable `sorted`). -/
def sortByNumber (l : List Column) : List Column :=
  l.foldl (fun acc c => insertByNumber c acc) []

/-- Function `prepare_columns_data` of `simulation.py`. -/
def prepare_columns_data (columns_info : List ColumnInfo) : List Column :=
  sortByNumber (columns_info.map fun col =>
    { number := col.column_number
      max_queue := col.max_workload
      fuel_types := col.fuel_type
      queue := []
      current_client := none
      time_free := 0
      total_liters_sold := 0
      clients_served := 0
      sales_by_brand := VALID_GASOLINE_TYPES.map fun b => (b, 0)
      max_queue_observed := 0 })

/-- The entries of the `suitable` list built by `find_best_column`,
paired with the position of the column in the columns list (Python
mutates the selected dictionary in place; the embedding updates the
list at that position). -/
def suitableEntriesFrom (fuel_type : String) : List Column → Nat → List (Nat × Column)
  | [], _ => []
  | c :: cs, i =>
      if fuel_type ∈ c.fuel_types ∧ c.queue.length < c.max_queue then
        (i, c) :: suitableEntriesFrom fuel_type cs (i + 1)
      else
        suitableEntriesFrom fuel_type cs (i + 1)

/-- The strict lexicographic comparison on `(queue length, number)` used
as sort key in `find_best_column`. -/
def bestKeyLt (a b : Nat × Column) : Prop :=
  a.2.queue.length < b.2.queue.length ∨
    (a.2.queue.length = b.2.queue.length ∧ a.2.number < b.2.number)

instance : DecidablePred fun p : (Nat × Column) × (Nat × Column) => bestKeyLt p.1 p.2 :=
  fun _ => by unfold bestKeyLt; infer_instance

instance (a b : Nat × Column) : Decidable (bestKeyLt a b) := by
  unfold bestKeyLt; infer_instance

/-- Function `find_best_column` of `simulation.py`: filter the suitable columns,
then take the first element of the list stably sorted by
`(queue length, number)` — i.e. the leftmost entry minimal in that
lexicographic key.  Returns the position together with the column. -/
def find_best_column (columns : List Column) (fuel_type : String) :
    Option (Nat × Column) :=
  match suitableEntriesFrom fuel_type columns 0 with
  | [] => none
  | x :: xs => some (xs.foldl (fun best y => if bestKeyLt y best then y else best) x)

/-- The result of a successful `start_service`: the departure event data
(`time`, `column`, `client`) plus the ghost `start` of the service
interval (recoverable as `time - client.service_time`). -/
structure StartResult where
  time : Nat
  column : Nat
  client : QueueClient
  start : Nat
deriving DecidableEq, Repr

/-- Function `start_service` of `simulation.py`: if the column has a waiting
client and an empty in-service slot, pop the front of the queue, mark it
in service, advance `time_free` to `max(now, time_free) + service_time`,
record the per-column statistics, and return the departure data. -/
def start_service (column : Column) (current_time : Nat) :
    Column × Option StartResult :=
  match column.queue, column.current_client with
  | [], _ => (column, none)
  | _ :: _, some _ => (column, none)
  | client :: restq, none =>
      let start := max current_time column.time_free
      let finish := start + client.service_time
      ({ column with
          queue := restq
          current_client := some client
          time_free := finish
          total_liters_sold := column.total_liters_sold + client.amount
          clients_served := column.clients_served + 1
          sales_by_brand := updBrand column.sales_by_brand client.fuel_type client.amount },
       some { time := finish, column := column.number, client := client, start := start })

/-- The `stats` dictionary of `run_simulation`. -/
structure Stats where
  served : Nat
  rejected : Nat
deriving DecidableEq, Repr

/-- Function `process_arrival` of `simulation.py`, with the random draw for this
call passed in as `jitter`.  Returns the updated columns list, the
updated statistics, and the departure data when a service started
immediately. -/
def process_arrival (client : InputClient) (columns : List Column)
    (current_time : Nat) (stats : Stats) (jitter : Int) :
    List Column × Stats × Option StartResult :=
  let fuel_type := client.fuel_type
  let fuel_amount := client.value
  let service_time := calculate_service_time fuel_amount jitter
  match find_best_column columns fuel_type with
  | none => (columns, { stats with rejected := stats.rejected + 1 }, none)
  | some (i, best) =>
      let queue_client : QueueClient :=
        { time := client.time
          arrival_minutes := current_time
          amount := fuel_amount
          fuel_type := fuel_type
          service_time := service_time
          column := best.number }
      let best := { best with queue := best.queue ++ [queue_client] }
      let best :=
        if best.max_queue_observed < best.queue.length then
          { best with max_queue_observed := best.queue.length }
        else best
      if best.current_client = none ∧ best.time_free ≤ current_time then
        let res := start_service best current_time
        (columns.set i res.1, stats, res.2)
      else
        (columns.set i best, stats, none)

/-- The `next(...)` lookup of `process_departure`: the first column with
the given number, together with its position. -/
def findByNumber (n : Nat) : List Column → Nat → Option (Nat × Column)
  | [], _ => none
  | c :: cs, i => if c.number = n then some (i, c) else findByNumber n cs (i + 1)

/-- Function `process_departure` of `simulation.py`: look up the addressed column;
if its in-service client matches the event payload on arrival minute,
amount and fuel type, clear the slot, count the request as served, and
start the next queued client if any; otherwise the event is stale and
nothing changes. -/
def process_departure (ev_column : Nat) (ev_client : QueueClient)
    (columns : List Column) (current_time : Nat) (stats : Stats) :
    List Column × Stats × Option StartResult :=
  match findByNumber ev_column columns 0 with
  | none => (columns, stats, none)
  | some (i, column) =>
      match column.current_client with
      | none => (columns, stats, none)
      | some current =>
          if current.arrival_minutes = ev_client.arrival_minutes ∧
             current.amount = ev_client.amount ∧
             current.fuel_type = ev_client.fuel_type then
            let column := { column with current_client := none }
            let stats := { stats with served := stats.served + 1 }
            if column.queue.isEmpty then
              (columns.set i column, stats, none)
            else
              let res := start_service column current_time
              (columns.set i res.1, stats, res.2)
          else
            (columns, stats, none)

/-- Event payload: the arrival payload is the parsed request record, the
departure payload is the addressed column number and the served client. -/
inductive EData where
  | arrival (client : InputClient)
  | departure (column : Nat) (client : QueueClient)
deriving DecidableEq, Repr

/-- Is this payload a departure payload? -/
def isDepData : EData → Bool
  | .arrival _ => false
  | .departure _ _ => true

/-- A scheduled event: logical time, insertion sequence number, payload. -/
structure Event where
  time : Nat
  counter : Nat
  data : EData
deriving DecidableEq, Repr

/-- The strict lexicographic heap key order on `(time, counter)`. -/
def eventKeyLt (a b : Event) : Prop :=
  a.time < b.time ∨ (a.time = b.time ∧ a.counter < b.counter)

instance (a b : Event) : Decidable (eventKeyLt a b) := by
  unfold eventKeyLt; infer_instance

/-- Sorted insertion into the event queue: the embedding of `heappush`
on a queue represented as a list sorted by `(time, counter)`. -/
def pushEvent (e : Event) : List Event → List Event
  | [] => [e]
  | x :: xs => if eventKeyLt e x then e :: x :: xs else x :: pushEvent e xs

/-- Ghost record of one processed event. -/
structure TraceEntry where
  time : Nat
  counter : Nat
  isDep : Bool
deriving DecidableEq, Repr

/-- Ghost record of one started service interval. -/
structure SvcRec where
  column : Nat
  start : Nat
  finish : Nat
deriving DecidableEq, Repr

/-- The whole simulation state threaded through the run loop.  The
fields `arrivalsProcessed`, `trace`, `svcLog` and `overflow` are ghost
instrumentation (see the module docstring). -/
structure SimState where
  columns : List Column
  stats : Stats
  eventQueue : List Event
  eventCounter : Nat
  rngIdx : Nat
  arrivalsProcessed : Nat
  trace : List TraceEntry
  svcLog : List SvcRec
  overflow : List Event
deriving DecidableEq, Repr

/-- Push the departure event produced by a successful `start_service`
(as the run loop does after each `start_service` call site), recording
the service interval in the ghost log. -/
def pushStart (st : SimState) (r : Option StartResult) : SimState :=
  match r with
  | none => st
  | some r =>
      { st with
          eventQueue :=
            pushEvent
              { time := r.time, counter := st.eventCounter,
                data := .departure r.column r.client }
              st.eventQueue
          eventCounter := st.eventCounter + 1
          svcLog := st.svcLog ++ [{ column := r.column, start := r.start, finish := r.time }] }

/-- One step of the rescan loop of `run_simulation`
(`for col in columns: if idle and queue: start_service and push`),
walking positions `i, i+1, ...` with `n` positions left to visit. -/
def rescanSteps (current_time : Nat) : Nat → Nat → SimState → SimState
  | 0, _, st => st
  | n + 1, i, st =>
      match st.columns[i]? with
      | none => st
      | some col =>
          if col.current_client = none ∧ col.queue ≠ [] then
            let res := start_service col current_time
            let st := pushStart { st with columns := st.columns.set i res.1 } res.2
            rescanSteps current_time n (i + 1) st
          else
            rescanSteps current_time n (i + 1) st

/-- The rescan pass over all columns performed after every arrival. -/
def rescan (current_time : Nat) (st : SimState) : SimState :=
  rescanSteps current_time st.columns.length 0 st

/-- Dispatch one popped event: the arrival branch consumes one draw of
the random stream, runs `process_arrival`, pushes its departure (if any)
and rescans all columns; the departure branch runs `process_departure`
and pushes the follow-up departure (if any). -/
def processEvent (stream : Nat → Int) (current_time : Nat) (data : EData)
    (st : SimState) : SimState :=
  match data with
  | .arrival c =>
      let jitter := stream st.rngIdx
      let st1 := { st with
                    rngIdx := st.rngIdx + 1
                    arrivalsProcessed := st.arrivalsProcessed + 1 }
      let res := process_arrival c st1.columns current_time st1.stats jitter
      let st2 := pushStart { st1 with columns := res.1, stats := res.2.1 } res.2.2
      rescan current_time st2
  | .departure n cl =>
      let res := process_departure n cl st.columns current_time st.stats
      pushStart { st with columns := res.1, stats := res.2.1 } res.2.2

/-- The main loop of `run_simulation`: while events remain and the clock
has not passed the horizon, pop the minimal `(time, counter)` event;
an event beyond the horizon ends the day unprocessed (it is moved to the
ghost `overflow` and nothing else changes); otherwise the event is
recorded in the ghost trace and dispatched.  `fuel` bounds the number of
iterations (see the module docstring). -/
def runLoop (stream : Nat → Int) : Nat → Nat → SimState → SimState
  | 0, _, st => st
  | fuel + 1, current_time, st =>
      match st.eventQueue with
      | [] => st
      | e :: rest =>
          if MINUTES_IN_DAY < current_time then st
          else if MINUTES_IN_DAY < e.time then
            { st with eventQueue := rest, overflow := st.overflow ++ [e] }
          else
            runLoop stream fuel e.time
              (processEvent stream e.time e.data
                { st with
                    eventQueue := rest
                    trace := st.trace ++
                      [{ time := e.time, counter := e.counter, isDep := isDepData e.data }] })

/-- Seed the event queue with one arrival per request, counters assigned
in input order; returns the queue and the next counter value. -/
def seedEvents (clients : List InputClient) : List Event × Nat :=
  clients.foldl
    (fun acc c =>
      (pushEvent { time := c.minutes, counter := acc.2, data := .arrival c } acc.1,
       acc.2 + 1))
    ([], 0)

/-- The initial simulation state of `run_simulation`. -/
def initState (columns_info : List ColumnInfo) (clients_data : List InputClient) :
    SimState :=
  let seeded := seedEvents clients_data
  { columns := prepare_columns_data columns_info
    stats := { served := 0, rejected := 0 }
    eventQueue := seeded.1
    eventCounter := seeded.2
    rngIdx := 0
    arrivalsProcessed := 0
    trace := []
    svcLog := []
    overflow := [] }

/-- Function `run_simulation` of `simulation.py` (printing elided), with the
random stream and the loop fuel made explicit. -/
def run_simulation (stream : Nat → Int) (columns_info : List ColumnInfo)
    (clients_data : List InputClient) (fuel : Nat) : SimState :=
  runLoop stream fuel 0 (initState columns_info clients_data)

/-- The queue entry built by `process_arrival` for an admitted client. -/
def admitClient (c : InputClient) (t : Nat) (j : Int) (n : Nat) : QueueClient :=
  { time := c.time
    arrival_minutes := t
    amount := c.value
    fuel_type := c.fuel_type
    service_time := calculate_service_time c.value j
    column := n }

/-- The column state after `process_arrival` appends the new client and
updates the high-water mark (names the two `let` steps of the source). -/
def admitColumn (best : Column) (c : InputClient) (t : Nat) (j : Int) : Column :=
  let b1 := { best with queue := best.queue ++ [admitClient c t j best.number] }
  if b1.max_queue_observed < b1.queue.length then
    { b1 with max_queue_observed := b1.queue.length }
  else b1

/-- 1 when the column is serving a client, else 0. -/
def curCount (c : Column) : Nat := if c.current_client.isSome then 1 else 0

/-- Number of columns currently serving a client. -/
def countServing (cols : List Column) : Nat := (cols.map curCount).sum

/-- Requests held by one column: waiting line plus in-service slot. -/
def inflightCol (c : Column) : Nat := c.queue.length + curCount c

/-- Requests admitted somewhere but not yet departed. -/
def inflight (cols : List Column) : Nat := (cols.map inflightCol).sum

/-- Sum of the per-column `clients_served` counters. -/
def sumServed (cols : List Column) : Nat := (cols.map Column.clients_served).sum

/-- Number of departure events in a list of events. -/
def countDeps (q : List Event) : Nat := q.countP fun e => isDepData e.data

/-- Is this a departure event scheduled beyond the daily horizon? -/
def isHighDep (e : Event) : Bool := isDepData e.data && decide (MINUTES_IN_DAY < e.time)

/-- Number of departure events beyond the horizon. -/
def countHighDeps (q : List Event) : Nat := q.countP isHighDep

/-- Number of logged service intervals finishing beyond the horizon. -/
def countHighLog (log : List SvcRec) : Nat :=
  log.countP fun r => decide (MINUTES_IN_DAY < r.finish)

/-- The counting invariant maintained by every step of the run loop:
every processed arrival is accounted exactly once (rejected, in flight,
or served), the random stream index counts processed arrivals, the
per-column served counters exceed the global one by the number of
columns still serving, pending departure events are covered by serving
columns, and beyond-horizon service intervals are covered by
beyond-horizon departure events. -/
structure InvM (st : SimState) : Prop where
  countA : st.stats.served + st.stats.rejected + inflight st.columns = st.arrivalsProcessed
  rngA : st.rngIdx = st.arrivalsProcessed
  servedA : sumServed st.columns = st.stats.served + countServing st.columns
  depsA : countDeps st.eventQueue + countDeps st.overflow ≤ countServing st.columns
  highA : countHighLog st.svcLog ≤ countHighDeps st.eventQueue + countHighDeps st.overflow

/-- The all-zero jitter stream (every draw is 0). -/
def streamZero : Nat → Int := fun _ => 0

/-- The fuel-type code 95 as a named constant. -/
def ft95 : String := "95"

/-- One column, number 1, capacity 1, supporting type 95. -/
def oneColumn : List ColumnInfo :=
  [{ column_number := 1, max_workload := 1, fuel_type := ["95"] }]

/-- One column, number 1, capacity 0, supporting type 95. -/
def zeroCapColumn : List ColumnInfo :=
  [{ column_number := 1, max_workload := 0, fuel_type := ["95"] }]

/-- A request for 10 liters of type 95 arriving at minute 0. -/
def clientAt0 : InputClient :=
  { time := "00:00", value := 10, fuel_type := "95", minutes := 0 }

/-- A request for 10 liters of type 95 arriving exactly at the horizon
minute 1440, whose service finishes at minute 1441. -/
def clientAtHorizon : InputClient :=
  { time := "24:00", value := 10, fuel_type := "95", minutes := 1440 }

/-- A served client record used by the duplicate-departure scenario. -/
def dupClient : QueueClient :=
  { time := "00:00", arrival_minutes := 0, amount := 10, fuel_type := "95",
    service_time := 1, column := 1 }

/-- A second client with the same arrival minute, amount and fuel type as
`dupClient` (only the service time differs), waiting in line. -/
def dupClientB : QueueClient :=
  { time := "00:00", arrival_minutes := 0, amount := 10, fuel_type := "95",
    service_time := 2, column := 1 }

/-- A column serving `dupClient` with the identically-fielded `dupClientB`
waiting in its line. -/
def dupColumn : Column :=
  { number := 1, max_queue := 1, fuel_types := ["95"], queue := [dupClientB],
    current_client := some dupClient, time_free := 1, total_liters_sold := 10,
    clients_served := 1, sales_by_brand := [("92", 0), ("95", 10), ("98", 0)],
    max_queue_observed := 1 }

/-- An idle column with an empty waiting line (used as a witness input). -/
def idleColumn : Column :=
  { number := 1, max_queue := 1, fuel_types := ["95"], queue := [],
    current_client := none, time_free := 0, total_liters_sold := 0,
    clients_served := 0, sales_by_brand := [("92", 0), ("95", 0), ("98", 0)],
    max_queue_observed := 0 }

/-- The stale-departure condition of `process_departure`: the addressed
column is absent, idle, or serving a client whose arrival minute, amount
or fuel type differs from the event payload. -/
def depMismatch (n : Nat) (cl : QueueClient) (cols : List Column) : Prop :=
  ∀ i col, findByNumber n cols 0 = some (i, col) →
    ∀ cur, col.current_client = some cur →
      ¬(cur.arrival_minutes = cl.arrival_minutes ∧ cur.amount = cl.amount ∧
        cur.fuel_type = cl.fuel_type)

/-- Is this payload an arrival payload? -/
def isArrData : EData → Bool
  | .arrival _ => true
  | .departure _ _ => false

/-- Number of arrival events in a list of events. -/
def countArrs (q : List Event) : Nat := q.countP fun e => isArrData e.data

/-- A stream equal to the zero stream on its first two draws only. -/
def streamAlt : Nat → Int := fun n => if n < 2 then 0 else 7

/-- The strict processing order on trace entries: earlier time first,
ties by smaller insertion sequence number. -/
def traceLt (a b : TraceEntry) : Prop :=
  a.time < b.time ∨ (a.time = b.time ∧ a.counter < b.counter)

instance (a b : TraceEntry) : Decidable (traceLt a b) := by
  unfold traceLt
  infer_instance

/-- The trace entry an event produces when processed. -/
def evKey (e : Event) : TraceEntry :=
  { time := e.time, counter := e.counter, isDep := isDepData e.data }

/-- The ordering invariant of the scheduler: the processed trace
followed by the pending queue is strictly sorted in `(time, counter)`
order, pending counters are below the next counter, processed times are
within the horizon, and every queued request's service time is at least
one minute (so every pushed departure lies strictly in the future). -/
structure InvQ (st : SimState) : Prop where
  pw : List.Pairwise traceLt (st.trace ++ st.eventQueue.map evKey)
  cnt : ∀ e ∈ st.eventQueue, e.counter < st.eventCounter
  horiz : ∀ x ∈ st.trace, x.time ≤ MINUTES_IN_DAY
  qb : ∀ col ∈ st.columns, ∀ q ∈ col.queue, 1 ≤ q.service_time

/-- An event scheduled one minute past the horizon. -/
def lateEvent : Event :=
  { time := 1441, counter := 0, data := .departure 1 dupClient }

/-- A state whose only pending event is `lateEvent`. -/
def lateState : SimState :=
  { columns := [], stats := { served := 0, rejected := 0 }, eventQueue := [lateEvent],
    eventCounter := 1, rngIdx := 0, arrivalsProcessed := 0, trace := [], svcLog := [],
    overflow := [] }

/-- The logged service intervals of the resource numbered `n`. -/
def logFor (n : Nat) (log : List SvcRec) : List SvcRec :=
  log.filter fun r => decide (r.column = n)

/-- The per-resource interval invariant: column numbers are distinct,
every logged interval belongs to an existing column, and each column's
log is chained (consecutive starts after previous finishes) and bounded
by the column's `time_free`. -/
structure InvL (cols : List Column) (log : List SvcRec) : Prop where
  nodup : (cols.map Column.number).Nodup
  covered : ∀ r ∈ log, ∃ (j : Nat) (colj : Column),
    cols[j]? = some colj ∧ r.column = colj.number
  chain : ∀ (i : Nat) (col : Column), cols[i]? = some col →
    List.Chain' (fun a b => a.finish ≤ b.start) (logFor col.number log) ∧
    ∀ r ∈ logFor col.number log, r.finish ≤ col.time_free

/-! ## Theorems -/

theorem sum_map_set {α : Type} (F : α → Nat) :
    ∀ (l : List α) (i : Nat) (c a : α), l[i]? = some a →
      ((l.set i c).map F).sum + F a = (l.map F).sum + F c
  | [], i, c, a, h => by simp at h
  | x :: xs, 0, c, a, h => by
      simp only [List.getElem?_cons_zero, Option.some.injEq] at h
      subst h
      simp only [List.set_cons_zero, List.map_cons, List.sum_cons]
      omega
  | x :: xs, i + 1, c, a, h => by
      simp only [List.getElem?_cons_succ] at h
      have ih := sum_map_set F xs i c a h
      simp only [List.set_cons_succ, List.map_cons, List.sum_cons]
      omega

theorem set_self {α : Type} :
    ∀ (l : List α) (i : Nat) (a : α), l[i]? = some a → l.set i a = l
  | [], _, _, h => by simp at h
  | x :: xs, 0, a, h => by
      simp only [List.getElem?_cons_zero, Option.some.injEq] at h
      subst h; rfl
  | x :: xs, i + 1, a, h => by
      simp only [List.getElem?_cons_succ] at h
      simp [List.set, set_self xs i a h]

theorem countP_pushEvent (p : Event → Bool) (e : Event) :
    ∀ q : List Event,
      (pushEvent e q).countP p = q.countP p + (if p e then 1 else 0)
  | [] => by simp [pushEvent, List.countP_cons]
  | x :: xs => by
      unfold pushEvent
      split
      · simp only [List.countP_cons]
      · simp only [List.countP_cons, countP_pushEvent p e xs]
        omega

theorem mem_pushEvent (e : Event) :
    ∀ (q : List Event) (x : Event), x ∈ pushEvent e q ↔ x = e ∨ x ∈ q
  | [], x => by simp [pushEvent]
  | y :: ys, x => by
      unfold pushEvent
      split
      · simp [or_comm, or_assoc, or_left_comm]
      · simp only [List.mem_cons, mem_pushEvent e ys x]
        tauto

theorem length_pushEvent (e : Event) :
    ∀ q : List Event, (pushEvent e q).length = q.length + 1
  | [] => rfl
  | y :: ys => by
      unfold pushEvent
      split
      · simp
      · simp [length_pushEvent e ys]

theorem start_service_of_empty (col : Column) (t : Nat) (h : col.queue = []) :
    start_service col t = (col, none) := by
  unfold start_service
  rw [h]

theorem start_service_of_busy (col : Column) (t : Nat) (cl : QueueClient)
    (h : col.current_client = some cl) : start_service col t = (col, none) := by
  unfold start_service
  rw [h]
  cases col.queue <;> rfl

theorem start_service_of_ready (col : Column) (t : Nat) (client : QueueClient)
    (restq : List QueueClient) (hq : col.queue = client :: restq)
    (hc : col.current_client = none) :
    start_service col t =
      ({ col with
          queue := restq
          current_client := some client
          time_free := max t col.time_free + client.service_time
          total_liters_sold := col.total_liters_sold + client.amount
          clients_served := col.clients_served + 1
          sales_by_brand := updBrand col.sales_by_brand client.fuel_type client.amount },
       some { time := max t col.time_free + client.service_time,
              column := col.number, client := client,
              start := max t col.time_free }) := by
  unfold start_service
  rw [hq, hc]

theorem pushStart_none (st : SimState) : pushStart st none = st := rfl

theorem pushStart_some (st : SimState) (r : StartResult) :
    pushStart st (some r) =
      { st with
          eventQueue :=
            pushEvent
              { time := r.time, counter := st.eventCounter,
                data := .departure r.column r.client }
              st.eventQueue
          eventCounter := st.eventCounter + 1
          svcLog := st.svcLog ++ [{ column := r.column, start := r.start, finish := r.time }] } :=
  rfl

theorem bestKeyLt_trans {a b c : Nat × Column} (h1 : bestKeyLt a b) (h2 : bestKeyLt b c) :
    bestKeyLt a c := by
  unfold bestKeyLt at *
  omega

theorem foldPick_mem :
    ∀ (xs : List (Nat × Column)) (x : Nat × Column),
      xs.foldl (fun best y => if bestKeyLt y best then y else best) x ∈ x :: xs
  | [], x => by simp
  | y :: ys, x => by
      simp only [List.foldl_cons]
      have h := foldPick_mem ys (if bestKeyLt y x then y else x)
      rcases List.mem_cons.1 h with h | h
      · rw [h]
        split
        · simp
        · simp
      · simp [h]

theorem foldPick_min :
    ∀ (xs : List (Nat × Column)) (x z : Nat × Column), z ∈ x :: xs →
      ¬ bestKeyLt z (xs.foldl (fun best y => if bestKeyLt y best then y else best) x)
  | [], x, z, hz => by
      rcases List.mem_cons.1 hz with h | h
      · subst h
        simp only [List.foldl_nil]
        unfold bestKeyLt
        omega
      · simp at h
  | y :: ys, x, z, hz => by
      simp only [List.foldl_cons]
      rcases List.mem_cons.1 hz with h | h
      · subst h
        by_cases hyx : bestKeyLt y z
        · rw [if_pos hyx]
          have hy := foldPick_min ys y y (List.mem_cons_self y ys)
          intro hlt
          exact hy (bestKeyLt_trans hyx hlt)
        · rw [if_neg hyx]
          exact foldPick_min ys z z (List.mem_cons_self z ys)
      · rcases List.mem_cons.1 h with h | h
        · subst h
          by_cases hyx : bestKeyLt z x
          · rw [if_pos hyx]
            exact foldPick_min ys z z (List.mem_cons_self z ys)
          · rw [if_neg hyx]
            have hx := foldPick_min ys x x (List.mem_cons_self x ys)
            intro hlt
            unfold bestKeyLt at hyx hlt hx
            omega
        · by_cases hyx : bestKeyLt y x
          · rw [if_pos hyx]
            exact foldPick_min ys y z (List.mem_cons_of_mem y h)
          · rw [if_neg hyx]
            exact foldPick_min ys x z (List.mem_cons_of_mem x h)

theorem suitable_sound (ft : String) :
    ∀ (l : List Column) (k i : Nat) (c : Column),
      (i, c) ∈ suitableEntriesFrom ft l k →
        k ≤ i ∧ l[i - k]? = some c ∧ ft ∈ c.fuel_types ∧ c.queue.length < c.max_queue
  | [], k, i, c, h => by simp [suitableEntriesFrom] at h
  | x :: xs, k, i, c, h => by
      unfold suitableEntriesFrom at h
      by_cases hcond : ft ∈ x.fuel_types ∧ x.queue.length < x.max_queue
      · rw [if_pos hcond] at h
        rcases List.mem_cons.1 h with h | h
        · rw [Prod.mk.injEq] at h
          rcases h with ⟨h1, h2⟩
          subst h1
          subst h2
          simpa using hcond
        · have ih := suitable_sound ft xs (k + 1) i c h
          refine ⟨by omega, ?_, ih.2.2⟩
          have hik : i - k = (i - (k + 1)) + 1 := by omega
          rw [hik, List.getElem?_cons_succ]
          exact ih.2.1
      · rw [if_neg hcond] at h
        have ih := suitable_sound ft xs (k + 1) i c h
        refine ⟨by omega, ?_, ih.2.2⟩
        have hik : i - k = (i - (k + 1)) + 1 := by omega
        rw [hik, List.getElem?_cons_succ]
        exact ih.2.1

theorem suitable_complete (ft : String) :
    ∀ (l : List Column) (k : Nat) (c : Column),
      c ∈ l → ft ∈ c.fuel_types → c.queue.length < c.max_queue →
        ∃ i, (i, c) ∈ suitableEntriesFrom ft l k
  | [], _, _, hc, _, _ => by simp at hc
  | x :: xs, k, c, hc, hft, hlen => by
      unfold suitableEntriesFrom
      rcases List.mem_cons.1 hc with h | h
      · subst h
        rw [if_pos ⟨hft, hlen⟩]
        exact ⟨k, List.mem_cons_self _ _⟩
      · have ih := suitable_complete ft xs (k + 1) c h hft hlen
        rcases ih with ⟨i, hi⟩
        by_cases hcond : ft ∈ x.fuel_types ∧ x.queue.length < x.max_queue
        · rw [if_pos hcond]
          exact ⟨i, List.mem_cons_of_mem _ hi⟩
        · rw [if_neg hcond]
          exact ⟨i, hi⟩

theorem suitable_nil (ft : String) :
    ∀ (l : List Column) (k : Nat), suitableEntriesFrom ft l k = [] →
      ∀ c ∈ l, ¬(ft ∈ c.fuel_types ∧ c.queue.length < c.max_queue)
  | [], _, _, c, hc => by simp at hc
  | x :: xs, k, h, c, hc => by
      unfold suitableEntriesFrom at h
      by_cases hcond : ft ∈ x.fuel_types ∧ x.queue.length < x.max_queue
      · rw [if_pos hcond] at h
        exact absurd h (List.cons_ne_nil _ _)
      · rw [if_neg hcond] at h
        rcases List.mem_cons.1 hc with hcx | hcx
        · subst hcx
          exact hcond
        · exact suitable_nil ft xs (k + 1) h c hcx

theorem find_best_spec (cols : List Column) (ft : String) (i : Nat) (best : Column)
    (h : find_best_column cols ft = some (i, best)) :
    cols[i]? = some best ∧ ft ∈ best.fuel_types ∧ best.queue.length < best.max_queue := by
  unfold find_best_column at h
  split at h
  · exact absurd h (by simp)
  next x xs hs =>
    have hmem : (i, best) ∈ x :: xs := by
      rw [Option.some.injEq] at h
      rw [← h]
      exact foldPick_mem xs x
    rw [← hs] at hmem
    have := suitable_sound ft cols 0 i best hmem
    simpa using this.2

theorem find_best_min (cols : List Column) (ft : String) (i : Nat) (best : Column)
    (h : find_best_column cols ft = some (i, best)) :
    ∀ c ∈ cols, ft ∈ c.fuel_types → c.queue.length < c.max_queue →
      best.queue.length < c.queue.length ∨
        (best.queue.length = c.queue.length ∧ best.number ≤ c.number) := by
  intro c hc hft hlen
  unfold find_best_column at h
  split at h
  next hs =>
    exact absurd h (by simp)
  next x xs hs =>
    rcases suitable_complete ft cols 0 c hc hft hlen with ⟨j, hj⟩
    rw [hs] at hj
    have hmin := foldPick_min xs x (j, c) hj
    rw [Option.some.injEq] at h
    rw [h] at hmin
    unfold bestKeyLt at hmin
    simp only at hmin
    omega

theorem find_best_none (cols : List Column) (ft : String)
    (h : find_best_column cols ft = none) :
    ∀ c ∈ cols, ¬(ft ∈ c.fuel_types ∧ c.queue.length < c.max_queue) := by
  unfold find_best_column at h
  split at h
  next hs =>
    exact suitable_nil ft cols 0 hs
  · exact absurd h (by simp)

theorem findByNumber_spec (n : Nat) :
    ∀ (l : List Column) (k i : Nat) (c : Column),
      findByNumber n l k = some (i, c) →
        k ≤ i ∧ l[i - k]? = some c ∧ c.number = n
  | [], k, i, c, h => by simp [findByNumber] at h
  | x :: xs, k, i, c, h => by
      unfold findByNumber at h
      by_cases hcond : x.number = n
      · rw [if_pos hcond] at h
        rw [Option.some.injEq, Prod.mk.injEq] at h
        rcases h with ⟨h1, h2⟩
        subst h1
        subst h2
        simpa using hcond
      · rw [if_neg hcond] at h
        have ih := findByNumber_spec n xs (k + 1) i c h
        refine ⟨by omega, ?_, ih.2.2⟩
        have hik : i - k = (i - (k + 1)) + 1 := by omega
        rw [hik, List.getElem?_cons_succ]
        exact ih.2.1

theorem countDeps_push (e : Event) (q : List Event) :
    countDeps (pushEvent e q) = countDeps q + (if isDepData e.data then 1 else 0) := by
  unfold countDeps
  rw [countP_pushEvent]

theorem countHighDeps_push (e : Event) (q : List Event) :
    countHighDeps (pushEvent e q) = countHighDeps q + (if isHighDep e then 1 else 0) := by
  unfold countHighDeps
  rw [countP_pushEvent]

theorem countDeps_cons (e : Event) (q : List Event) :
    countDeps (e :: q) = countDeps q + (if isDepData e.data then 1 else 0) := by
  unfold countDeps
  rw [List.countP_cons]

theorem countHighDeps_cons (e : Event) (q : List Event) :
    countHighDeps (e :: q) = countHighDeps q + (if isHighDep e then 1 else 0) := by
  unfold countHighDeps
  rw [List.countP_cons]

theorem countDeps_append (a b : List Event) :
    countDeps (a ++ b) = countDeps a + countDeps b := by
  unfold countDeps
  rw [List.countP_append]

theorem countHighDeps_append (a b : List Event) :
    countHighDeps (a ++ b) = countHighDeps a + countHighDeps b := by
  unfold countHighDeps
  rw [List.countP_append]

theorem countHighLog_append (l : List SvcRec) (r : SvcRec) :
    countHighLog (l ++ [r]) =
      countHighLog l + (if MINUTES_IN_DAY < r.finish then 1 else 0) := by
  unfold countHighLog
  rw [List.countP_append]
  simp [List.countP_cons]

/-- Everything the invariant proofs need to know about a successful
`start_service` on a ready column. -/
theorem start_ready_facts (col : Column) (t : Nat) (hc : col.current_client = none)
    (q : QueueClient) (rest : List QueueClient) (hqe : col.queue = q :: rest) :
    ∃ col2 rr, start_service col t = (col2, some rr) ∧
      inflightCol col2 = inflightCol col ∧
      col2.clients_served = col.clients_served + 1 ∧
      curCount col = 0 ∧ curCount col2 = 1 ∧
      col2.number = col.number ∧
      col2.time_free = max t col.time_free + q.service_time ∧
      rr.time = max t col.time_free + q.service_time ∧
      rr.start = max t col.time_free ∧
      rr.client = q ∧ rr.column = col.number ∧
      col2.queue = rest ∧
      col.time_free ≤ rr.start := by
  rw [start_service_of_ready col t q rest hqe hc]
  refine ⟨_, _, rfl, ?_, rfl, ?_, ?_, rfl, rfl, rfl, rfl, rfl, rfl, rfl, ?_⟩
  · simp [inflightCol, curCount, hqe, hc]
  · simp [curCount, hc]
  · simp [curCount]
  · simp

theorem process_arrival_none (c : InputClient) (cols : List Column) (t : Nat)
    (s : Stats) (j : Int) (h : find_best_column cols c.fuel_type = none) :
    process_arrival c cols t s j =
      (cols, { served := s.served, rejected := s.rejected + 1 }, none) := by
  simp only [process_arrival, h]

theorem process_arrival_some (c : InputClient) (cols : List Column) (t : Nat)
    (s : Stats) (j : Int) (i : Nat) (best : Column)
    (h : find_best_column cols c.fuel_type = some (i, best)) :
    process_arrival c cols t s j =
      (if (admitColumn best c t j).current_client = none ∧
          (admitColumn best c t j).time_free ≤ t then
        (cols.set i (start_service (admitColumn best c t j) t).1, s,
         (start_service (admitColumn best c t j) t).2)
      else
        (cols.set i (admitColumn best c t j), s, none)) := by
  simp only [process_arrival, admitColumn, admitClient, h]

theorem process_departure_nofind (n : Nat) (cl : QueueClient) (cols : List Column)
    (t : Nat) (s : Stats) (h : findByNumber n cols 0 = none) :
    process_departure n cl cols t s = (cols, s, none) := by
  simp only [process_departure, h]

theorem process_departure_idle (n : Nat) (cl : QueueClient) (cols : List Column)
    (t : Nat) (s : Stats) (i : Nat) (col : Column)
    (h : findByNumber n cols 0 = some (i, col)) (hc : col.current_client = none) :
    process_departure n cl cols t s = (cols, s, none) := by
  simp only [process_departure, h, hc]

theorem process_departure_mismatch (n : Nat) (cl : QueueClient) (cols : List Column)
    (t : Nat) (s : Stats) (i : Nat) (col : Column) (cur : QueueClient)
    (h : findByNumber n cols 0 = some (i, col)) (hc : col.current_client = some cur)
    (hne : ¬(cur.arrival_minutes = cl.arrival_minutes ∧ cur.amount = cl.amount ∧
             cur.fuel_type = cl.fuel_type)) :
    process_departure n cl cols t s = (cols, s, none) := by
  simp only [process_departure, h, hc, if_neg hne]

theorem process_departure_match (n : Nat) (cl : QueueClient) (cols : List Column)
    (t : Nat) (s : Stats) (i : Nat) (col : Column) (cur : QueueClient)
    (h : findByNumber n cols 0 = some (i, col)) (hc : col.current_client = some cur)
    (heq : cur.arrival_minutes = cl.arrival_minutes ∧ cur.amount = cl.amount ∧
           cur.fuel_type = cl.fuel_type) :
    process_departure n cl cols t s =
      (if ({ col with current_client := none } : Column).queue.isEmpty then
        (cols.set i { col with current_client := none },
         { served := s.served + 1, rejected := s.rejected }, none)
      else
        (cols.set i (start_service { col with current_client := none } t).1,
         { served := s.served + 1, rejected := s.rejected },
         (start_service { col with current_client := none } t).2)) := by
  simp only [process_departure, h, hc, if_pos heq]

theorem invM_rescanSteps (t : Nat) :
    ∀ (n i : Nat) (st : SimState), InvM st → InvM (rescanSteps t n i st)
  | 0, _, _, h => h
  | n + 1, i, st, h => by
      unfold rescanSteps
      split
      · exact h
      next col hi =>
        by_cases hg : col.current_client = none ∧ col.queue ≠ []
        · rw [if_pos hg]
          rcases hg with ⟨hc, hq⟩
          cases hqe : col.queue with
          | nil => exact absurd hqe hq
          | cons q rest =>
            obtain ⟨col2, rr, hss, h1, h2, h3, h4, h5, h6, h7, h8, h9, h10, h11, h12⟩ :=
              start_ready_facts col t hc q rest hqe
            simp only [hss]
            rw [pushStart_some]
            apply invM_rescanSteps t n (i + 1)
            have hsI := sum_map_set inflightCol st.columns i col2 col hi
            have hsS := sum_map_set Column.clients_served st.columns i col2 col hi
            have hsC := sum_map_set curCount st.columns i col2 col hi
            constructor
            · have hc0 := h.countA
              simp only [inflight] at hc0 ⊢
              omega
            · exact h.rngA
            · have hs0 := h.servedA
              simp only [sumServed, countServing] at hs0 ⊢
              omega
            · have hd0 := h.depsA
              simp only [countServing] at hd0 ⊢
              rw [countDeps_push]
              simp only [isDepData, if_true]
              omega
            · have hh0 := h.highA
              have hsplit : (if isHighDep
                  { time := rr.time, counter := st.eventCounter,
                    data := EData.departure rr.column rr.client } then 1 else 0) =
                  (if MINUTES_IN_DAY < rr.time then (1 : Nat) else 0) := by
                simp [isHighDep, isDepData]
              simp only [countHighLog_append, countHighDeps_push, hsplit]
              omega
        · rw [if_neg hg]
          exact invM_rescanSteps t n (i + 1) st h

theorem isHighDep_false_of_le (e : Event) (h : e.time ≤ MINUTES_IN_DAY) :
    isHighDep e = false := by
  unfold isHighDep
  simp only [Bool.and_eq_false_iff]
  right
  simpa using by omega

theorem countDeps_singleton (e : Event) :
    countDeps [e] = if isDepData e.data then 1 else 0 := by
  simp [countDeps, List.countP_cons]

theorem countHighDeps_singleton (e : Event) :
    countHighDeps [e] = if isHighDep e then 1 else 0 := by
  simp [countHighDeps, List.countP_cons]

theorem admit_facts (best : Column) (c : InputClient) (t : Nat) (j : Int) :
    inflightCol (admitColumn best c t j) = inflightCol best + 1 ∧
    (admitColumn best c t j).clients_served = best.clients_served ∧
    curCount (admitColumn best c t j) = curCount best ∧
    (admitColumn best c t j).number = best.number ∧
    (admitColumn best c t j).current_client = best.current_client ∧
    (admitColumn best c t j).time_free = best.time_free ∧
    (admitColumn best c t j).queue = best.queue ++ [admitClient c t j best.number] := by
  simp only [admitColumn]
  split <;>
    refine ⟨?_, rfl, rfl, rfl, rfl, rfl, rfl⟩ <;>
      simp [inflightCol, curCount] <;> omega

theorem mem_insertByNumber (c : Column) :
    ∀ (l : List Column) (x : Column), x ∈ insertByNumber c l ↔ x = c ∨ x ∈ l
  | [], x => by simp [insertByNumber]
  | d :: ds, x => by
      unfold insertByNumber
      split
      · simp
      · simp only [List.mem_cons, mem_insertByNumber c ds x]
        tauto

theorem mem_sortByNumber_aux :
    ∀ (l : List Column) (acc : List Column) (x : Column),
      x ∈ l.foldl (fun acc c => insertByNumber c acc) acc ↔ x ∈ acc ∨ x ∈ l
  | [], acc, x => by simp
  | c :: cs, acc, x => by
      simp only [List.foldl_cons, mem_sortByNumber_aux cs (insertByNumber c acc) x,
        mem_insertByNumber, List.mem_cons]
      tauto

theorem mem_sortByNumber (l : List Column) (x : Column) :
    x ∈ sortByNumber l ↔ x ∈ l := by
  unfold sortByNumber
  rw [mem_sortByNumber_aux]
  simp

theorem prepare_mem (columns_info : List ColumnInfo) (col : Column)
    (h : col ∈ prepare_columns_data columns_info) :
    col.queue = [] ∧ col.current_client = none ∧ col.clients_served = 0 ∧
    col.time_free = 0 := by
  unfold prepare_columns_data at h
  rw [mem_sortByNumber] at h
  rcases List.mem_map.1 h with ⟨ci, _, hc⟩
  rw [← hc]
  exact ⟨rfl, rfl, rfl, rfl⟩

theorem sum_map_zero {α : Type} (F : α → Nat) (l : List α)
    (h : ∀ x ∈ l, F x = 0) : (l.map F).sum = 0 := by
  induction l with
  | nil => rfl
  | cons x xs ih =>
      simp only [List.map_cons, List.sum_cons]
      rw [h x (List.mem_cons_self x xs), ih fun y hy => h y (List.mem_cons_of_mem x hy)]

theorem countDeps_seed :
    ∀ (clients : List InputClient) (acc : List Event × Nat),
      countDeps (clients.foldl
        (fun acc c =>
          (pushEvent { time := c.minutes, counter := acc.2, data := .arrival c } acc.1,
           acc.2 + 1)) acc).1 = countDeps acc.1
  | [], _ => rfl
  | c :: cs, acc => by
      simp only [List.foldl_cons]
      rw [countDeps_seed cs]
      simp [countDeps_push, isDepData]

theorem countHighDeps_seed :
    ∀ (clients : List InputClient) (acc : List Event × Nat),
      countHighDeps (clients.foldl
        (fun acc c =>
          (pushEvent { time := c.minutes, counter := acc.2, data := .arrival c } acc.1,
           acc.2 + 1)) acc).1 = countHighDeps acc.1
  | [], _ => rfl
  | c :: cs, acc => by
      simp only [List.foldl_cons]
      rw [countHighDeps_seed cs]
      simp [countHighDeps_push, isHighDep, isDepData]

theorem invM_init (columns_info : List ColumnInfo) (clients_data : List InputClient) :
    InvM (initState columns_info clients_data) := by
  have hq : inflight (prepare_columns_data columns_info) = 0 := by
    apply sum_map_zero
    intro x hx
    rcases prepare_mem columns_info x hx with ⟨h1, h2, _, _⟩
    simp [inflightCol, curCount, h1, h2]
  have hs : sumServed (prepare_columns_data columns_info) = 0 := by
    apply sum_map_zero
    intro x hx
    exact (prepare_mem columns_info x hx).2.2.1
  have hcs : countServing (prepare_columns_data columns_info) = 0 := by
    apply sum_map_zero
    intro x hx
    rcases prepare_mem columns_info x hx with ⟨_, h2, _, _⟩
    simp [curCount, h2]
  have hd : countDeps (seedEvents clients_data).1 = 0 := by
    unfold seedEvents
    rw [countDeps_seed]
    rfl
  have hh : countHighDeps (seedEvents clients_data).1 = 0 := by
    unfold seedEvents
    rw [countHighDeps_seed]
    rfl
  constructor
  · simp [initState, hq]
  · simp [initState]
  · simp [initState, hs, hcs]
  · have h0 : countDeps ([] : List Event) = 0 := rfl
    simp only [initState]
    omega
  · have h0 : countHighLog ([] : List SvcRec) = 0 := rfl
    have h1 : countHighDeps ([] : List Event) = 0 := rfl
    simp only [initState]
    omega

theorem invM_step (stream : Nat → Int) (e : Event) (rest : List Event)
    (st : SimState) (tr : List TraceEntry)
    (hq : st.eventQueue = e :: rest) (hle : e.time ≤ MINUTES_IN_DAY)
    (h : InvM st) :
    InvM (processEvent stream e.time e.data { st with eventQueue := rest, trace := tr }) := by
  have hqh : countHighDeps st.eventQueue = countHighDeps rest := by
    rw [hq, countHighDeps_cons, isHighDep_false_of_le e hle]
    simp
  cases hd : e.data with
  | arrival c =>
      have hqc : countDeps st.eventQueue = countDeps rest := by
        rw [hq, countDeps_cons, hd]
        simp [isDepData]
      simp only [processEvent]
      cases hfb : find_best_column st.columns c.fuel_type with
      | none =>
          have hpa := process_arrival_none c st.columns e.time st.stats (stream st.rngIdx) hfb
          simp only [hpa, pushStart_none]
          apply invM_rescanSteps
          constructor
          · have h0 := h.countA
            simp only []
            omega
          · have h0 := h.rngA
            simp only []
            omega
          · exact h.servedA
          · have h0 := h.depsA
            simp only []
            omega
          · have h0 := h.highA
            simp only []
            omega
      | some p =>
          obtain ⟨i, best⟩ := p
          have hi := (find_best_spec st.columns c.fuel_type i best hfb).1
          have hpa := process_arrival_some c st.columns e.time st.stats (stream st.rngIdx) i best hfb
          obtain ⟨ha1, ha2, ha3, ha4, ha5, ha6, ha7⟩ :=
            admit_facts best c e.time (stream st.rngIdx)
          by_cases hcond : (admitColumn best c e.time (stream st.rngIdx)).current_client = none ∧
              (admitColumn best c e.time (stream st.rngIdx)).time_free ≤ e.time
          · rw [if_pos hcond] at hpa
            have hqne : (admitColumn best c e.time (stream st.rngIdx)).queue ≠ [] := by
              rw [ha7]
              simp
            obtain ⟨q0, rq, hq0⟩ := List.exists_cons_of_ne_nil hqne
            obtain ⟨col2, rr, hss, f1, f2, f3, f4, f5, f6, f7, f8, f9, f10, f11, f12⟩ :=
              start_ready_facts _ e.time hcond.1 q0 rq hq0
            rw [hss] at hpa
            simp only [hpa, pushStart_some]
            apply invM_rescanSteps
            have hsI := sum_map_set inflightCol st.columns i col2 best hi
            have hsS := sum_map_set Column.clients_served st.columns i col2 best hi
            have hsC := sum_map_set curCount st.columns i col2 best hi
            constructor
            · have h0 := h.countA
              simp only [inflight] at h0 ⊢
              omega
            · have h0 := h.rngA
              simp only []
              omega
            · have h0 := h.servedA
              simp only [sumServed, countServing] at h0 ⊢
              omega
            · have h0 := h.depsA
              simp only [countServing] at h0 ⊢
              rw [countDeps_push]
              simp only [isDepData, if_true]
              omega
            · have h0 := h.highA
              have hsplit : (if isHighDep
                  { time := rr.time, counter := st.eventCounter,
                    data := EData.departure rr.column rr.client } then 1 else 0) =
                  (if MINUTES_IN_DAY < rr.time then (1 : Nat) else 0) := by
                simp [isHighDep, isDepData]
              simp only []
              simp only [countHighLog_append, countHighDeps_push, hsplit]
              omega
          · rw [if_neg hcond] at hpa
            simp only [hpa, pushStart_none]
            apply invM_rescanSteps
            have hsI := sum_map_set inflightCol st.columns i
              (admitColumn best c e.time (stream st.rngIdx)) best hi
            have hsS := sum_map_set Column.clients_served st.columns i
              (admitColumn best c e.time (stream st.rngIdx)) best hi
            have hsC := sum_map_set curCount st.columns i
              (admitColumn best c e.time (stream st.rngIdx)) best hi
            constructor
            · have h0 := h.countA
              simp only [inflight] at h0 ⊢
              omega
            · have h0 := h.rngA
              simp only []
              omega
            · have h0 := h.servedA
              simp only [sumServed, countServing] at h0 ⊢
              omega
            · have h0 := h.depsA
              simp only [countServing] at h0 ⊢
              omega
            · have h0 := h.highA
              simp only []
              omega
  | departure n cl =>
      have hqc : countDeps st.eventQueue = countDeps rest + 1 := by
        rw [hq, countDeps_cons, hd]
        simp [isDepData]
      simp only [processEvent]
      cases hfn : findByNumber n st.columns 0 with
      | none =>
          have hpd := process_departure_nofind n cl st.columns e.time st.stats hfn
          simp only [hpd, pushStart_none]
          constructor
          · exact h.countA
          · exact h.rngA
          · exact h.servedA
          · have h0 := h.depsA
            simp only []
            omega
          · have h0 := h.highA
            simp only []
            omega
      | some p =>
          obtain ⟨i, col⟩ := p
          have hspec := findByNumber_spec n st.columns 0 i col hfn
          have hi : st.columns[i]? = some col := by simpa using hspec.2.1
          cases hcc : col.current_client with
          | none =>
              have hpd := process_departure_idle n cl st.columns e.time st.stats i col hfn hcc
              simp only [hpd, pushStart_none]
              constructor
              · exact h.countA
              · exact h.rngA
              · exact h.servedA
              · have h0 := h.depsA
                simp only []
                omega
              · have h0 := h.highA
                simp only []
                omega
          | some cur =>
              by_cases hmatch : cur.arrival_minutes = cl.arrival_minutes ∧
                  cur.amount = cl.amount ∧ cur.fuel_type = cl.fuel_type
              · have hpd := process_departure_match n cl st.columns e.time st.stats i col cur
                  hfn hcc hmatch
                have hcur2 : curCount col = 1 := by simp [curCount, hcc]
                by_cases hqe : ({ col with current_client := none } : Column).queue.isEmpty
                · rw [if_pos hqe] at hpd
                  simp only [hpd, pushStart_none]
                  have hsI := sum_map_set inflightCol st.columns i
                    { col with current_client := none } col hi
                  have hsS := sum_map_set Column.clients_served st.columns i
                    { col with current_client := none } col hi
                  have hsC := sum_map_set curCount st.columns i
                    { col with current_client := none } col hi
                  have hcol1 : inflightCol ({ col with current_client := none } : Column) + 1 =
                      inflightCol col := by
                    simp [inflightCol, curCount, hcc]
                  have hcur : curCount ({ col with current_client := none } : Column) = 0 := by
                    simp [curCount]
                  have hclients : ({ col with current_client := none } : Column).clients_served =
                      col.clients_served := rfl
                  constructor
                  · have h0 := h.countA
                    simp only [inflight] at h0 ⊢
                    omega
                  · exact h.rngA
                  · have h0 := h.servedA
                    simp only [sumServed, countServing] at h0 ⊢
                    omega
                  · have h0 := h.depsA
                    simp only [countServing] at h0 ⊢
                    omega
                  · have h0 := h.highA
                    simp only []
                    omega
                · rw [if_neg hqe] at hpd
                  have hqene : ({ col with current_client := none } : Column).queue ≠ [] := by
                    simpa [List.isEmpty_iff] using hqe
                  obtain ⟨q0, rq, hq0⟩ := List.exists_cons_of_ne_nil hqene
                  obtain ⟨col2, rr, hss, f1, f2, f3, f4, f5, f6, f7, f8, f9, f10, f11, f12⟩ :=
                    start_ready_facts { col with current_client := none } e.time rfl q0 rq hq0
                  rw [hss] at hpd
                  simp only [hpd, pushStart_some]
                  have hsI := sum_map_set inflightCol st.columns i col2 col hi
                  have hsS := sum_map_set Column.clients_served st.columns i col2 col hi
                  have hsC := sum_map_set curCount st.columns i col2 col hi
                  have hcol1 : inflightCol ({ col with current_client := none } : Column) + 1 =
                      inflightCol col := by
                    simp [inflightCol, curCount, hcc]
                  have hclients : ({ col with current_client := none } : Column).clients_served =
                      col.clients_served := rfl
                  constructor
                  · have h0 := h.countA
                    simp only [inflight] at h0 ⊢
                    omega
                  · exact h.rngA
                  · have h0 := h.servedA
                    simp only [sumServed, countServing] at h0 ⊢
                    omega
                  · have h0 := h.depsA
                    simp only [countServing] at h0 ⊢
                    rw [countDeps_push]
                    simp only [isDepData, if_true]
                    omega
                  · have h0 := h.highA
                    have hsplit : (if isHighDep
                        { time := rr.time, counter := st.eventCounter,
                          data := EData.departure rr.column rr.client } then 1 else 0) =
                        (if MINUTES_IN_DAY < rr.time then (1 : Nat) else 0) := by
                      simp [isHighDep, isDepData]
                    simp only []
                    simp only [countHighLog_append, countHighDeps_push, hsplit]
                    omega
              · have hpd := process_departure_mismatch n cl st.columns e.time st.stats i col cur
                  hfn hcc hmatch
                simp only [hpd, pushStart_none]
                constructor
                · exact h.countA
                · exact h.rngA
                · exact h.servedA
                · have h0 := h.depsA
                  simp only []
                  omega
                · have h0 := h.highA
                  simp only []
                  omega

theorem invM_runLoop (stream : Nat → Int) :
    ∀ (fuel t : Nat) (st : SimState), InvM st → InvM (runLoop stream fuel t st)
  | 0, _, _, h => h
  | fuel + 1, t, st, h => by
      unfold runLoop
      split
      · exact h
      next e rest hq =>
        by_cases h1 : MINUTES_IN_DAY < t
        · rw [if_pos h1]
          exact h
        · rw [if_neg h1]
          by_cases h2 : MINUTES_IN_DAY < e.time
          · rw [if_pos h2]
            constructor
            · exact h.countA
            · exact h.rngA
            · exact h.servedA
            · have h0 := h.depsA
              have ha := countDeps_append st.overflow [e]
              have hb := countDeps_singleton e
              have hc : countDeps st.eventQueue =
                  countDeps rest + (if isDepData e.data then 1 else 0) := by
                rw [hq, countDeps_cons]
              simp only []
              omega
            · have h0 := h.highA
              have ha := countHighDeps_append st.overflow [e]
              have hb := countHighDeps_singleton e
              have hc : countHighDeps st.eventQueue =
                  countHighDeps rest + (if isHighDep e then 1 else 0) := by
                rw [hq, countHighDeps_cons]
              simp only []
              omega
          · rw [if_neg h2]
            exact invM_runLoop stream fuel e.time _
              (invM_step stream e rest st _ hq (Nat.le_of_not_lt h2) h)

theorem invM_run (stream : Nat → Int) (columns_info : List ColumnInfo)
    (clients_data : List InputClient) (fuel : Nat) :
    InvM (run_simulation stream columns_info clients_data fuel) :=
  invM_runLoop stream fuel 0 _ (invM_init columns_info clients_data)

/-- C1, counterexample: a single request arriving at minute 1440 is
admitted and served, but its departure at minute 1441 lies beyond the
horizon, so after the run `served + rejected = 0` while one arrival was
popped and processed within the horizon — the claimed equality fails. -/
theorem claim_C1_counterexample :
    ¬ ((run_simulation streamZero oneColumn [clientAtHorizon] 10).stats.served +
       (run_simulation streamZero oneColumn [clientAtHorizon] 10).stats.rejected =
       (run_simulation streamZero oneColumn [clientAtHorizon] 10).arrivalsProcessed) := by
  decide

/-- C1, amended: for every run, `served + rejected` plus the number of
requests still admitted (waiting or in service) equals the number of
requests whose arrival event was popped and processed within the daily
horizon; each such request is counted in exactly one of the three. -/
theorem claim_C1_amended (stream : Nat → Int) (info : List ColumnInfo)
    (clients : List InputClient) (fuel : Nat) :
    (run_simulation stream info clients fuel).stats.served +
    (run_simulation stream info clients fuel).stats.rejected +
    inflight (run_simulation stream info clients fuel).columns =
    (run_simulation stream info clients fuel).arrivalsProcessed :=
  (invM_run stream info clients fuel).countA

/-- C2, counterexample: in the spec's first scenario (one resource of
capacity 1 supporting type 95, two requests of 10 L at minute 0, zero
jitter) the second request is admitted to the waiting line — capacity
counts only the waiting line, and the first request has already moved to
the in-service slot — so the run ends with `served = 2, rejected = 0`,
not the claimed `served = 1, rejected = 1`. -/
theorem claim_C2_counterexample :
    ¬ ((run_simulation streamZero oneColumn [clientAt0, clientAt0] 10).stats.served = 1 ∧
       (run_simulation streamZero oneColumn [clientAt0, clientAt0] 10).stats.rejected = 1) := by
  decide

/-- C2, amended: in that scenario (zero jitter draws) the first request
starts service at minute 0 and finishes at minute 1; the second request
is admitted to the waiting line and starts at minute 1 when the first
departs; the run ends with `served = 2, rejected = 0`. -/
theorem claim_C2_amended :
    (run_simulation streamZero oneColumn [clientAt0, clientAt0] 10).stats =
      { served := 2, rejected := 0 } ∧
    (run_simulation streamZero oneColumn [clientAt0, clientAt0] 10).svcLog =
      [{ column := 1, start := 0, finish := 1 },
       { column := 1, start := 1, finish := 2 }] := by
  decide

/-- C3, counterexample: with a single zero-capacity column, the only
arrival is rejected (`rejected = 1`, no service ever starts), yet the
random stream index has advanced by one — `calculate_service_time` is
called by `process_arrival` before the admission decision, so a rejected
arrival does consume a draw, contradicting the claim. -/
theorem claim_C3_counterexample :
    (run_simulation streamZero zeroCapColumn [clientAt0] 10).stats.rejected = 1 ∧
    (run_simulation streamZero zeroCapColumn [clientAt0] 10).svcLog = [] ∧
    (run_simulation streamZero zeroCapColumn [clientAt0] 10).rngIdx = 1 := by
  decide

/-- C3, amended: the service duration is computed by the Service-Time
Model inside `process_arrival`, when the arrival event is processed and
before the admission decision; exactly one draw of the shared randomness
stream is consumed per processed arrival, whether the request is
admitted or rejected, and `start_service` consumes none. -/
theorem claim_C3_amended (stream : Nat → Int) (info : List ColumnInfo)
    (clients : List InputClient) (fuel : Nat) :
    (run_simulation stream info clients fuel).rngIdx =
    (run_simulation stream info clients fuel).arrivalsProcessed :=
  (invM_run stream info clients fuel).rngA

/-- C10: per-resource `clients_served` counters are incremented at
service start while the global `served` counter is incremented at
departure processing, so their sum always equals `served` plus the
number of columns currently serving; hence the sum dominates `served`,
strictly whenever some started service's departure lies beyond the daily
horizon. -/
theorem claim_C10 (stream : Nat → Int) (info : List ColumnInfo)
    (clients : List InputClient) (fuel : Nat) :
    sumServed (run_simulation stream info clients fuel).columns =
      (run_simulation stream info clients fuel).stats.served +
      countServing (run_simulation stream info clients fuel).columns ∧
    (run_simulation stream info clients fuel).stats.served ≤
      sumServed (run_simulation stream info clients fuel).columns ∧
    ((∃ r ∈ (run_simulation stream info clients fuel).svcLog,
        MINUTES_IN_DAY < r.finish) →
      (run_simulation stream info clients fuel).stats.served <
        sumServed (run_simulation stream info clients fuel).columns) := by
  have hinv := invM_run stream info clients fuel
  refine ⟨hinv.servedA, by have := hinv.servedA; omega, ?_⟩
  intro hex
  have hpos : 0 < countHighLog (run_simulation stream info clients fuel).svcLog := by
    unfold countHighLog
    rw [List.countP_pos_iff]
    rcases hex with ⟨r, hr, hrt⟩
    exact ⟨r, hr, by simpa using hrt⟩
  have hmono1 : countHighDeps (run_simulation stream info clients fuel).eventQueue ≤
      countDeps (run_simulation stream info clients fuel).eventQueue := by
    unfold countHighDeps countDeps
    apply List.countP_mono_left
    intro a _ ha
    unfold isHighDep at ha
    exact (Bool.and_eq_true_iff.1 ha).1
  have hmono2 : countHighDeps (run_simulation stream info clients fuel).overflow ≤
      countDeps (run_simulation stream info clients fuel).overflow := by
    unfold countHighDeps countDeps
    apply List.countP_mono_left
    intro a _ ha
    unfold isHighDep at ha
    exact (Bool.and_eq_true_iff.1 ha).1
  have h1 := hinv.highA
  have h2 := hinv.depsA
  have h3 := hinv.servedA
  omega

/-- C10, witness: in the horizon-straddling run the only started
service finishes at minute 1441 > 1440, and indeed the global `served`
counter (0) is strictly below the per-column sum (1). -/
theorem claim_C10_witness :
    (run_simulation streamZero oneColumn [clientAtHorizon] 10).stats.served <
      sumServed (run_simulation streamZero oneColumn [clientAtHorizon] 10).columns :=
  (claim_C10 streamZero oneColumn [clientAtHorizon] 10).2.2 (by decide)

/-- C4: the assignment policy returns a resource that supports the
requested type and whose waiting-line length is strictly below its
capacity, minimal among all such resources in waiting-line length with
ties broken by smallest identifier; it returns none exactly when no
resource passes the filter. -/
theorem claim_C4 (cols : List Column) (ft : String) :
    (∀ i best, find_best_column cols ft = some (i, best) →
      cols[i]? = some best ∧ ft ∈ best.fuel_types ∧
      best.queue.length < best.max_queue ∧
      ∀ c ∈ cols, ft ∈ c.fuel_types → c.queue.length < c.max_queue →
        best.queue.length < c.queue.length ∨
          (best.queue.length = c.queue.length ∧ best.number ≤ c.number)) ∧
    (find_best_column cols ft = none ↔
      ∀ c ∈ cols, ¬(ft ∈ c.fuel_types ∧ c.queue.length < c.max_queue)) := by
  constructor
  · intro i best h
    rcases find_best_spec cols ft i best h with ⟨h1, h2, h3⟩
    exact ⟨h1, h2, h3, find_best_min cols ft i best h⟩
  · constructor
    · exact find_best_none cols ft
    · intro hall
      cases h : find_best_column cols ft with
      | none => rfl
      | some p =>
          obtain ⟨i, best⟩ := p
          rcases find_best_spec cols ft i best h with ⟨h1, h2, h3⟩
          exact absurd ⟨h2, h3⟩ (hall best (List.getElem?_mem h1))

/-- C4, witness: on the concrete one-idle-column input the policy picks
that column at position 0, and it passes the filter. -/
theorem claim_C4_witness :
    ([idleColumn] : List Column)[0]? = some idleColumn ∧
    ft95 ∈ idleColumn.fuel_types ∧
    idleColumn.queue.length < idleColumn.max_queue :=
  ⟨((claim_C4 [idleColumn] ft95).1 0 idleColumn (by decide)).1,
   ((claim_C4 [idleColumn] ft95).1 0 idleColumn (by decide)).2.1,
   ((claim_C4 [idleColumn] ft95).1 0 idleColumn (by decide)).2.2.1⟩

/-- C5: for every positive quantity the computed duration equals
`max 1 (⌈quantity / rate⌉ + jitter)` — witnessed by the unique `b` with
`rate * (b - 1) < quantity ≤ rate * b` — and is therefore at least one
minute. -/
theorem claim_C5 (q : Nat) (j : Int) (hq : 0 < q) :
    1 ≤ calculate_service_time q j ∧
    ∃ b : Nat, (calculate_service_time q j : Int) = max 1 ((b : Int) + j) ∧
      REFUELING_RATE * (b - 1) < q ∧ q ≤ REFUELING_RATE * b := by
  constructor
  · simp only [calculate_service_time]
    omega
  · refine ⟨(q + REFUELING_RATE - 1) / REFUELING_RATE, ?_, ?_, ?_⟩
    · simp only [calculate_service_time]
      omega
    · simp only [REFUELING_RATE]
      omega
    · simp only [REFUELING_RATE]
      omega

/-- C5, witness: for 25 liters and jitter -1 the duration is
`max 1 (3 - 1) = 2` minutes, with `10 * 2 < 25 ≤ 10 * 3`. -/
theorem claim_C5_witness :
    0 < 25 ∧
    (1 ≤ calculate_service_time 25 (-1) ∧
     ∃ b : Nat, (calculate_service_time 25 (-1) : Int) = max 1 ((b : Int) + (-1)) ∧
       REFUELING_RATE * (b - 1) < 25 ∧ 25 ≤ REFUELING_RATE * b) :=
  ⟨by decide, claim_C5 25 (-1) (by decide)⟩

theorem dep_mismatch_noop (n : Nat) (cl : QueueClient) (cols : List Column)
    (t : Nat) (s : Stats) (h : depMismatch n cl cols) :
    process_departure n cl cols t s = (cols, s, none) := by
  cases hfn : findByNumber n cols 0 with
  | none => exact process_departure_nofind n cl cols t s hfn
  | some p =>
      obtain ⟨i, col⟩ := p
      cases hcc : col.current_client with
      | none => exact process_departure_idle n cl cols t s i col hfn hcc
      | some cur =>
          exact process_departure_mismatch n cl cols t s i col cur hfn hcc
            (h i col hfn cur hcc)

/-- C6, counterexample: with a column serving `dupClient` and the
identically-fielded `dupClientB` waiting, processing the same departure
event twice changes state twice — the first processing frees the column
and starts `dupClientB`, and the second processing matches
`dupClientB`'s equal fields and frees the column again (`served` reaches
2), so the second processing is not a no-op. -/
theorem claim_C6_counterexample :
    ¬ ((process_departure 1 dupClient
          (process_departure 1 dupClient [dupColumn] 1 { served := 0, rejected := 0 }).1 2
          (process_departure 1 dupClient [dupColumn] 1 { served := 0, rejected := 0 }).2.1).2.1 =
        (process_departure 1 dupClient [dupColumn] 1 { served := 0, rejected := 0 }).2.1) := by
  decide

/-- C6, amended: a departure event that does not match the addressed
resource's in-service request (absent column, idle column, or differing
arrival minute / amount / fuel type) leaves the columns and counters
unchanged and returns no event; consequently processing the same
departure event twice changes state at most once, provided the request
put in service by the first processing (if any) does not carry the same
arrival minute, amount and fuel type as the event payload. -/
theorem claim_C6_amended (n : Nat) (cl : QueueClient) (cols : List Column)
    (t t' : Nat) (s : Stats) :
    (depMismatch n cl cols → process_departure n cl cols t s = (cols, s, none)) ∧
    (depMismatch n cl (process_departure n cl cols t s).1 →
      process_departure n cl (process_departure n cl cols t s).1 t'
          (process_departure n cl cols t s).2.1 =
        ((process_departure n cl cols t s).1,
         (process_departure n cl cols t s).2.1, none)) :=
  ⟨fun h => dep_mismatch_noop n cl cols t s h,
   fun h => dep_mismatch_noop n cl _ t' _ h⟩

/-- C6, witness: on an idle column every departure event is stale and
both the first and the repeated processing are no-ops. -/
theorem claim_C6_witness :
    process_departure 1 dupClient [idleColumn] 0 { served := 0, rejected := 0 } =
      ([idleColumn], { served := 0, rejected := 0 }, none) :=
  (claim_C6_amended 1 dupClient [idleColumn] 0 0 { served := 0, rejected := 0 }).1
    (by
      intro i col h cur hcur
      have hev : findByNumber 1 [idleColumn] 0 = some (0, idleColumn) := by decide
      rw [hev, Option.some.injEq, Prod.mk.injEq] at h
      rcases h with ⟨_, h2⟩
      rw [← h2] at hcur
      simp [idleColumn] at hcur)

theorem countArrs_cons (e : Event) (q : List Event) :
    countArrs (e :: q) = countArrs q + (if isArrData e.data then 1 else 0) := by
  unfold countArrs
  rw [List.countP_cons]

theorem pushStart_rng (st : SimState) (r : Option StartResult) :
    (pushStart st r).rngIdx = st.rngIdx ∧
    countArrs (pushStart st r).eventQueue = countArrs st.eventQueue := by
  cases r with
  | none => exact ⟨rfl, rfl⟩
  | some r =>
      refine ⟨rfl, ?_⟩
      rw [pushStart_some]
      unfold countArrs
      rw [countP_pushEvent]
      simp [isArrData]

theorem rescan_rng (t : Nat) :
    ∀ (n i : Nat) (st : SimState),
      (rescanSteps t n i st).rngIdx = st.rngIdx ∧
      countArrs (rescanSteps t n i st).eventQueue = countArrs st.eventQueue
  | 0, _, _ => ⟨rfl, rfl⟩
  | n + 1, i, st => by
      unfold rescanSteps
      split
      · exact ⟨rfl, rfl⟩
      next col hi =>
        by_cases hg : col.current_client = none ∧ col.queue ≠ []
        · rw [if_pos hg]
          simp only []
          have h1 := rescan_rng t n (i + 1)
            (pushStart { st with columns := st.columns.set i (start_service col t).1 }
              (start_service col t).2)
          have h2 := pushStart_rng
            { st with columns := st.columns.set i (start_service col t).1 }
            (start_service col t).2
          have h3 : ({ st with columns := st.columns.set i (start_service col t).1 } :
              SimState).rngIdx = st.rngIdx := rfl
          have h4 : countArrs ({ st with
              columns := st.columns.set i (start_service col t).1 } :
              SimState).eventQueue = countArrs st.eventQueue := rfl
          exact ⟨by omega, by omega⟩
        · rw [if_neg hg]
          exact rescan_rng t n (i + 1) st

theorem rescan_pushStart_rng (t : Nat) (X : SimState) (r : Option StartResult) :
    (rescan t (pushStart X r)).rngIdx = X.rngIdx ∧
    countArrs (rescan t (pushStart X r)).eventQueue = countArrs X.eventQueue := by
  have h1 := rescan_rng t (pushStart X r).columns.length 0 (pushStart X r)
  have h2 := pushStart_rng X r
  unfold rescan
  exact ⟨by omega, by omega⟩

theorem processEvent_measure_arr (stream : Nat → Int) (t : Nat) (c : InputClient)
    (st : SimState) :
    (processEvent stream t (.arrival c) st).rngIdx +
      countArrs (processEvent stream t (.arrival c) st).eventQueue =
    st.rngIdx + countArrs st.eventQueue + 1 := by
  simp only [processEvent]
  generalize process_arrival c st.columns t st.stats (stream st.rngIdx) = A
  have h := rescan_pushStart_rng t
    { columns := A.1, stats := A.2.1, eventQueue := st.eventQueue,
      eventCounter := st.eventCounter, rngIdx := st.rngIdx + 1,
      arrivalsProcessed := st.arrivalsProcessed + 1, trace := st.trace,
      svcLog := st.svcLog, overflow := st.overflow } A.2.2
  simp only [] at h ⊢
  omega

theorem processEvent_measure_dep (stream : Nat → Int) (t n : Nat) (cl : QueueClient)
    (st : SimState) :
    (processEvent stream t (.departure n cl) st).rngIdx +
      countArrs (processEvent stream t (.departure n cl) st).eventQueue =
    st.rngIdx + countArrs st.eventQueue := by
  simp only [processEvent]
  generalize process_departure n cl st.columns t st.stats = A
  have h := pushStart_rng
    { columns := A.1, stats := A.2.1, eventQueue := st.eventQueue,
      eventCounter := st.eventCounter, rngIdx := st.rngIdx,
      arrivalsProcessed := st.arrivalsProcessed, trace := st.trace,
      svcLog := st.svcLog, overflow := st.overflow } A.2.2
  simp only [] at h ⊢
  omega

theorem processEvent_measure (stream : Nat → Int) (t : Nat) (d : EData) (st : SimState) :
    (processEvent stream t d st).rngIdx +
      countArrs (processEvent stream t d st).eventQueue =
    st.rngIdx + countArrs st.eventQueue + (if isArrData d then 1 else 0) := by
  cases d with
  | arrival c =>
      have h := processEvent_measure_arr stream t c st
      simp only [isArrData, if_true]
      omega
  | departure n cl =>
      have h := processEvent_measure_dep stream t n cl st
      simp only [isArrData, Bool.false_eq_true, if_false]
      omega

theorem processEvent_congr (j1 j2 : Nat → Int) (t : Nat) (d : EData) (st : SimState)
    (h : isArrData d = true → j1 st.rngIdx = j2 st.rngIdx) :
    processEvent j1 t d st = processEvent j2 t d st := by
  cases d with
  | arrival c => simp only [processEvent, h rfl]
  | departure n cl => rfl

theorem runLoop_congr (j1 j2 : Nat → Int) :
    ∀ (fuel t : Nat) (st : SimState),
      (∀ m, m < st.rngIdx + countArrs st.eventQueue → j1 m = j2 m) →
      runLoop j1 fuel t st = runLoop j2 fuel t st
  | 0, _, _, _ => rfl
  | fuel + 1, t, st, hstream => by
      unfold runLoop
      split
      · rfl
      next e rest hq =>
        by_cases h1 : MINUTES_IN_DAY < t
        · rw [if_pos h1, if_pos h1]
        · rw [if_neg h1, if_neg h1]
          by_cases h2 : MINUTES_IN_DAY < e.time
          · rw [if_pos h2, if_pos h2]
          · rw [if_neg h2, if_neg h2]
            have hq' : countArrs st.eventQueue =
                countArrs rest + (if isArrData e.data then 1 else 0) := by
              rw [hq, countArrs_cons]
            have hcong := processEvent_congr j1 j2 e.time e.data
              { st with
                  eventQueue := rest,
                  trace := st.trace ++
                    [{ time := e.time, counter := e.counter, isDep := isDepData e.data }] }
              (by
                intro hisarr
                apply hstream
                simp only []
                rw [hq']
                simp [hisarr])
            rw [hcong]
            apply runLoop_congr j1 j2 fuel e.time
            intro m hm
            apply hstream
            have hms := processEvent_measure j2 e.time e.data
              { st with
                  eventQueue := rest,
                  trace := st.trace ++
                    [{ time := e.time, counter := e.counter, isDep := isDepData e.data }] }
            simp only [] at hms
            omega

theorem countArrs_seed :
    ∀ (clients : List InputClient) (acc : List Event × Nat),
      countArrs (clients.foldl
        (fun acc c =>
          (pushEvent { time := c.minutes, counter := acc.2, data := .arrival c } acc.1,
           acc.2 + 1)) acc).1 = countArrs acc.1 + clients.length
  | [], _ => rfl
  | c :: cs, acc => by
      simp only [List.foldl_cons]
      rw [countArrs_seed cs]
      unfold countArrs
      rw [countP_pushEvent]
      simp only [isArrData, List.length_cons, if_true]
      omega

/-- C9: for every pair of jitter streams that agree on the first
`clients.length` draws (in particular for one fixed stream), two runs
over identical resource definitions and identical request sequences
produce equal `served`/`rejected` counters and, for every resource,
equal totals — indeed, the entire final states coincide. -/
theorem claim_C9 (j1 j2 : Nat → Int) (info : List ColumnInfo)
    (clients : List InputClient) (fuel : Nat)
    (h : ∀ m, m < clients.length → j1 m = j2 m) :
    (run_simulation j1 info clients fuel).stats =
      (run_simulation j2 info clients fuel).stats ∧
    (run_simulation j1 info clients fuel).columns =
      (run_simulation j2 info clients fuel).columns := by
  have hrun : run_simulation j1 info clients fuel = run_simulation j2 info clients fuel := by
    unfold run_simulation
    apply runLoop_congr
    intro m hm
    apply h
    have hseed : countArrs (initState info clients).eventQueue = clients.length := by
      simp only [initState, seedEvents]
      rw [countArrs_seed]
      simp [countArrs]
    have hrng : (initState info clients).rngIdx = 0 := rfl
    omega
  exact ⟨by rw [hrun], by rw [hrun]⟩

/-- C9, witness: the zero stream and `streamAlt` agree on the two draws
the two-request run consumes, and the two runs' outputs coincide. -/
theorem claim_C9_witness :
    (run_simulation streamZero oneColumn [clientAt0, clientAt0] 10).stats =
      (run_simulation streamAlt oneColumn [clientAt0, clientAt0] 10).stats ∧
    (run_simulation streamZero oneColumn [clientAt0, clientAt0] 10).columns =
      (run_simulation streamAlt oneColumn [clientAt0, clientAt0] 10).columns :=
  claim_C9 streamZero streamAlt oneColumn [clientAt0, clientAt0] 10
    (by
      intro m hm
      simp only [List.length_cons, List.length_nil] at hm
      simp [streamZero, streamAlt]
      omega)

theorem traceLt_trans {a b c : TraceEntry} (h1 : traceLt a b) (h2 : traceLt b c) :
    traceLt a c := by
  unfold traceLt at *
  omega

theorem traceLt_evKey (a b : Event) :
    traceLt (evKey a) (evKey b) ↔
      (a.time < b.time ∨ (a.time = b.time ∧ a.counter < b.counter)) :=
  Iff.rfl

theorem eventKeyLt_iff (a b : Event) :
    eventKeyLt a b ↔ traceLt (evKey a) (evKey b) :=
  Iff.rfl

theorem mem_map_pushEvent (ev : Event) (q : List Event) (y : TraceEntry)
    (hy : y ∈ (pushEvent ev q).map evKey) : y = evKey ev ∨ y ∈ q.map evKey := by
  rcases List.mem_map.1 hy with ⟨x, hx, hxy⟩
  rcases (mem_pushEvent ev q x).1 hx with h | h
  · left
    rw [← hxy, h]
  · right
    exact List.mem_map.2 ⟨x, h, hxy⟩

theorem pairwise_pushEvent (ev : Event) :
    ∀ (q : List Event),
      List.Pairwise traceLt (q.map evKey) →
      (∀ x ∈ q, traceLt (evKey ev) (evKey x) ∨ traceLt (evKey x) (evKey ev)) →
      List.Pairwise traceLt ((pushEvent ev q).map evKey)
  | [], _, _ => by simp [pushEvent]
  | x :: xs, hp, htot => by
      unfold pushEvent
      simp only [List.map_cons] at hp
      rw [List.pairwise_cons] at hp
      split
      next hlt =>
        have hltx : traceLt (evKey ev) (evKey x) := (eventKeyLt_iff ev x).1 hlt
        simp only [List.map_cons]
        rw [List.pairwise_cons]
        constructor
        · intro y hy
          rcases List.mem_cons.1 hy with h | h
          · rw [h]
            exact hltx
          · exact traceLt_trans hltx (hp.1 y h)
        · rw [List.pairwise_cons]
          exact hp
      next hlt =>
        have hltx : traceLt (evKey x) (evKey ev) := by
          rcases htot x (List.mem_cons_self x xs) with h | h
          · exact absurd ((eventKeyLt_iff ev x).2 h) hlt
          · exact h
        simp only [List.map_cons]
        rw [List.pairwise_cons]
        constructor
        · intro y hy
          rcases mem_map_pushEvent ev xs y hy with h | h
          · rw [h]
            exact hltx
          · exact hp.1 y h
        · exact pairwise_pushEvent ev xs hp.2
            fun z hz => htot z (List.mem_cons_of_mem x hz)

/-- Sorted insertion with a fresh counter preserves strict sortedness
and the counter bound. -/
theorem invE_push (tcur : Nat) (q : List Event) (cnt : Nat)
    (trc : List TraceEntry) (ev : Event)
    (hpw : List.Pairwise traceLt (trc ++ q.map evKey))
    (hcnt : ∀ x ∈ q, x.counter < cnt)
    (htr : ∀ x ∈ trc, x.time ≤ tcur)
    (hev : ev.counter = cnt) (hevt : tcur < ev.time) :
    List.Pairwise traceLt (trc ++ (pushEvent ev q).map evKey) ∧
    (∀ x ∈ pushEvent ev q, x.counter < cnt + 1) := by
  rw [List.pairwise_append] at hpw
  constructor
  · rw [List.pairwise_append]
    refine ⟨hpw.1, ?_, ?_⟩
    · apply pairwise_pushEvent ev q hpw.2.1
      intro x hx
      have hx2 := hcnt x hx
      rw [traceLt_evKey, traceLt_evKey]
      omega
    · intro a ha b hb
      rcases mem_map_pushEvent ev q b hb with h | h
      · rw [h]
        have ha2 := htr a ha
        unfold traceLt evKey
        simp only []
        omega
      · exact hpw.2.2 a ha b h
  · intro x hx
    rcases (mem_pushEvent ev q x).1 hx with h | h
    · rw [h]
      omega
    · have := hcnt x h
      omega

theorem seed_invE :
    ∀ (clients : List InputClient) (acc : List Event × Nat),
      List.Pairwise traceLt (acc.1.map evKey) →
      (∀ x ∈ acc.1, x.counter < acc.2) →
      List.Pairwise traceLt ((clients.foldl
        (fun acc c =>
          (pushEvent { time := c.minutes, counter := acc.2, data := .arrival c } acc.1,
           acc.2 + 1)) acc).1.map evKey) ∧
      (∀ x ∈ (clients.foldl
        (fun acc c =>
          (pushEvent { time := c.minutes, counter := acc.2, data := .arrival c } acc.1,
           acc.2 + 1)) acc).1,
        x.counter < (clients.foldl
        (fun acc c =>
          (pushEvent { time := c.minutes, counter := acc.2, data := .arrival c } acc.1,
           acc.2 + 1)) acc).2)
  | [], _, hp, hc => ⟨hp, hc⟩
  | c :: cs, acc, hp, hc => by
      simp only [List.foldl_cons]
      apply seed_invE cs
      · apply pairwise_pushEvent _ _ hp
        intro x hx
        have hx2 := hc x hx
        rw [traceLt_evKey, traceLt_evKey]
        simp only []
        omega
      · intro x hx
        rcases (mem_pushEvent _ acc.1 x).1 hx with h | h
        · rw [h]
          simp only []
          omega
        · have := hc x h
          omega

/-- 1 is a lower bound for every computed service time. -/
theorem calculate_service_time_pos (a : Nat) (j : Int) :
    1 ≤ calculate_service_time a j := by
  simp only [calculate_service_time]
  omega

theorem invQ_push_res (tcur : Nat) (q : List Event) (cnt : Nat)
    (trc : List TraceEntry) (colx : Column)
    (hqbx : ∀ qc ∈ colx.queue, 1 ≤ qc.service_time)
    (hpw : List.Pairwise traceLt (trc ++ q.map evKey))
    (hcnt : ∀ e ∈ q, e.counter < cnt)
    (hmid : ∀ x ∈ trc, x.time ≤ tcur) :
    ∀ r, (start_service colx tcur).2 = some r →
      List.Pairwise traceLt (trc ++
        (pushEvent { time := r.time, counter := cnt, data := .departure r.column r.client }
          q).map evKey) ∧
      (∀ e ∈ pushEvent { time := r.time, counter := cnt, data := .departure r.column r.client }
          q, e.counter < cnt + 1) := by
  intro r hr
  cases hqe : colx.queue with
  | nil =>
      rw [start_service_of_empty colx tcur hqe] at hr
      exact absurd hr (by simp)
  | cons q0 rq =>
      cases hcc : colx.current_client with
      | some cl =>
          rw [start_service_of_busy colx tcur cl hcc] at hr
          exact absurd hr (by simp)
      | none =>
          obtain ⟨col2, rr, hss, f1, f2, f3, f4, f5, f6, f7, f8, f9, f10, f11, f12⟩ :=
            start_ready_facts colx tcur hcc q0 rq hqe
          rw [hss] at hr
          rw [Option.some.injEq] at hr
          have hq0 : 1 ≤ q0.service_time := hqbx q0 (hqe ▸ List.mem_cons_self q0 rq)
          have hrt : tcur < r.time := by
            rw [← hr]
            omega
          exact invE_push tcur q cnt trc _ hpw hcnt hmid rfl hrt

theorem invQ_rescanSteps (tcur : Nat) :
    ∀ (n i : Nat) (st : SimState), InvQ st → (∀ x ∈ st.trace, x.time ≤ tcur) →
      InvQ (rescanSteps tcur n i st) ∧
      (∀ x ∈ (rescanSteps tcur n i st).trace, x.time ≤ tcur)
  | 0, _, _, h, hmid => ⟨h, hmid⟩
  | n + 1, i, st, h, hmid => by
      unfold rescanSteps
      split
      · exact ⟨h, hmid⟩
      next col hi =>
        by_cases hg : col.current_client = none ∧ col.queue ≠ []
        · rw [if_pos hg]
          simp only []
          rcases hg with ⟨hc, hq⟩
          cases hqe : col.queue with
          | nil => exact absurd hqe hq
          | cons q0 rq =>
            obtain ⟨col2, rr, hss, f1, f2, f3, f4, f5, f6, f7, f8, f9, f10, f11, f12⟩ :=
              start_ready_facts col tcur hc q0 rq hqe
            rw [hss]
            simp only [pushStart_some]
            apply invQ_rescanSteps tcur n (i + 1)
            · have hcolmem := List.getElem?_mem hi
              have hpush := invQ_push_res tcur st.eventQueue st.eventCounter st.trace col
                (h.qb col hcolmem) h.pw h.cnt hmid rr
                (by rw [hss])
              constructor
              · exact hpush.1
              · exact hpush.2
              · exact h.horiz
              · intro c hcmem qq hqq
                rcases List.mem_or_eq_of_mem_set hcmem with hmem | hmem
                · exact h.qb c hmem qq hqq
                · rw [hmem] at hqq
                  rw [f11] at hqq
                  exact h.qb col hcolmem qq (hqe ▸ List.mem_cons_of_mem q0 hqq)
            · exact hmid
        · rw [if_neg hg]
          exact invQ_rescanSteps tcur n (i + 1) st h hmid

theorem invQ_rescan (tcur : Nat) (st : SimState) (h : InvQ st)
    (hmid : ∀ x ∈ st.trace, x.time ≤ tcur) : InvQ (rescan tcur st) := by
  unfold rescan
  exact (invQ_rescanSteps tcur st.columns.length 0 st h hmid).1

theorem invQ_step (stream : Nat → Int) (e : Event) (rest : List Event)
    (st : SimState)
    (hq : st.eventQueue = e :: rest) (hle : e.time ≤ MINUTES_IN_DAY)
    (h : InvQ st) :
    InvQ (processEvent stream e.time e.data
      { st with eventQueue := rest, trace := st.trace ++ [evKey e] }) := by
  have hpw0 : List.Pairwise traceLt ((st.trace ++ [evKey e]) ++ rest.map evKey) := by
    have hthis := h.pw
    rw [hq, List.map_cons] at hthis
    rw [List.append_assoc, List.singleton_append]
    exact hthis
  have hmid0 : ∀ x ∈ st.trace ++ [evKey e], x.time ≤ e.time := by
    intro x hx
    rcases List.mem_append.1 hx with hx | hx
    · have hcross := (List.pairwise_append.1 h.pw).2.2 x hx (evKey e)
        (by
          rw [hq, List.map_cons]
          exact List.mem_cons_self _ _)
      unfold traceLt evKey at hcross
      simp only [] at hcross
      omega
    · simp only [List.mem_singleton] at hx
      rw [hx]
      exact Nat.le_refl _
  have hhoriz0 : ∀ x ∈ st.trace ++ [evKey e], x.time ≤ MINUTES_IN_DAY := by
    intro x hx
    rcases List.mem_append.1 hx with hx | hx
    · exact h.horiz x hx
    · simp only [List.mem_singleton] at hx
      rw [hx]
      exact hle
  have hcnt0 : ∀ x ∈ rest, x.counter < st.eventCounter := fun x hx =>
    h.cnt x (hq ▸ List.mem_cons_of_mem e hx)
  cases hd : e.data with
  | arrival c =>
      simp only [processEvent]
      cases hfb : find_best_column st.columns c.fuel_type with
      | none =>
          have hpa := process_arrival_none c st.columns e.time st.stats (stream st.rngIdx) hfb
          simp only [hpa, pushStart_none]
          apply invQ_rescan
          · exact ⟨hpw0, hcnt0, hhoriz0, h.qb⟩
          · exact hmid0
      | some p =>
          obtain ⟨i, best⟩ := p
          have hi := (find_best_spec st.columns c.fuel_type i best hfb).1
          have hbestmem := List.getElem?_mem hi
          have hpa := process_arrival_some c st.columns e.time st.stats (stream st.rngIdx) i best hfb
          obtain ⟨ha1, ha2, ha3, ha4, ha5, ha6, ha7⟩ :=
            admit_facts best c e.time (stream st.rngIdx)
          have hqb2 : ∀ qc ∈ (admitColumn best c e.time (stream st.rngIdx)).queue,
              1 ≤ qc.service_time := by
            rw [ha7]
            intro qc hqc
            rcases List.mem_append.1 hqc with hqc | hqc
            · exact h.qb best hbestmem qc hqc
            · simp only [List.mem_singleton] at hqc
              rw [hqc]
              exact calculate_service_time_pos c.value (stream st.rngIdx)
          by_cases hcond : (admitColumn best c e.time (stream st.rngIdx)).current_client = none ∧
              (admitColumn best c e.time (stream st.rngIdx)).time_free ≤ e.time
          · rw [if_pos hcond] at hpa
            have hqne : (admitColumn best c e.time (stream st.rngIdx)).queue ≠ [] := by
              rw [ha7]
              simp
            obtain ⟨q0, rq, hq0⟩ := List.exists_cons_of_ne_nil hqne
            obtain ⟨col2, rr, hss, f1, f2, f3, f4, f5, f6, f7, f8, f9, f10, f11, f12⟩ :=
              start_ready_facts _ e.time hcond.1 q0 rq hq0
            rw [hss] at hpa
            simp only [hpa, pushStart_some]
            apply invQ_rescan
            · have hpush := invQ_push_res e.time rest st.eventCounter (st.trace ++ [evKey e])
                (admitColumn best c e.time (stream st.rngIdx)) hqb2 hpw0 hcnt0 hmid0 rr
                (by rw [hss])
              refine ⟨hpush.1, hpush.2, hhoriz0, ?_⟩
              intro cc hcc qq hqq
              rcases List.mem_or_eq_of_mem_set hcc with hmem | hmem
              · exact h.qb cc hmem qq hqq
              · rw [hmem, f11] at hqq
                exact hqb2 qq (hq0 ▸ List.mem_cons_of_mem q0 hqq)
            · exact hmid0
          · rw [if_neg hcond] at hpa
            simp only [hpa, pushStart_none]
            apply invQ_rescan
            · refine ⟨hpw0, hcnt0, hhoriz0, ?_⟩
              intro cc hcc qq hqq
              rcases List.mem_or_eq_of_mem_set hcc with hmem | hmem
              · exact h.qb cc hmem qq hqq
              · rw [hmem] at hqq
                exact hqb2 qq hqq
            · exact hmid0
  | departure n cl =>
      simp only [processEvent]
      cases hfn : findByNumber n st.columns 0 with
      | none =>
          have hpd := process_departure_nofind n cl st.columns e.time st.stats hfn
          simp only [hpd, pushStart_none]
          exact ⟨hpw0, hcnt0, hhoriz0, h.qb⟩
      | some p =>
          obtain ⟨i, col⟩ := p
          have hspec := findByNumber_spec n st.columns 0 i col hfn
          have hi : st.columns[i]? = some col := by simpa using hspec.2.1
          have hcolmem := List.getElem?_mem hi
          cases hcc : col.current_client with
          | none =>
              have hpd := process_departure_idle n cl st.columns e.time st.stats i col hfn hcc
              simp only [hpd, pushStart_none]
              exact ⟨hpw0, hcnt0, hhoriz0, h.qb⟩
          | some cur =>
              by_cases hmatch : cur.arrival_minutes = cl.arrival_minutes ∧
                  cur.amount = cl.amount ∧ cur.fuel_type = cl.fuel_type
              · have hpd := process_departure_match n cl st.columns e.time st.stats i col cur
                  hfn hcc hmatch
                have hqb1 : ∀ qc ∈ ({ col with current_client := none } : Column).queue,
                    1 ≤ qc.service_time := fun qc hqc => h.qb col hcolmem qc hqc
                by_cases hqe : ({ col with current_client := none } : Column).queue.isEmpty
                · rw [if_pos hqe] at hpd
                  simp only [hpd, pushStart_none]
                  refine ⟨hpw0, hcnt0, hhoriz0, ?_⟩
                  intro cc hccm qq hqq
                  rcases List.mem_or_eq_of_mem_set hccm with hmem | hmem
                  · exact h.qb cc hmem qq hqq
                  · rw [hmem] at hqq
                    exact h.qb col hcolmem qq hqq
                · rw [if_neg hqe] at hpd
                  have hqene : ({ col with current_client := none } : Column).queue ≠ [] := by
                    simpa [List.isEmpty_iff] using hqe
                  obtain ⟨q0, rq, hq0⟩ := List.exists_cons_of_ne_nil hqene
                  obtain ⟨col2, rr, hss, f1, f2, f3, f4, f5, f6, f7, f8, f9, f10, f11, f12⟩ :=
                    start_ready_facts { col with current_client := none } e.time rfl q0 rq hq0
                  rw [hss] at hpd
                  simp only [hpd, pushStart_some]
                  have hpush := invQ_push_res e.time rest st.eventCounter (st.trace ++ [evKey e])
                    { col with current_client := none } hqb1 hpw0 hcnt0 hmid0 rr
                    (by rw [hss])
                  refine ⟨hpush.1, hpush.2, hhoriz0, ?_⟩
                  intro cc hccm qq hqq
                  rcases List.mem_or_eq_of_mem_set hccm with hmem | hmem
                  · exact h.qb cc hmem qq hqq
                  · rw [hmem, f11] at hqq
                    exact hqb1 qq (hq0 ▸ List.mem_cons_of_mem q0 hqq)
              · have hpd := process_departure_mismatch n cl st.columns e.time st.stats i col cur
                  hfn hcc hmatch
                simp only [hpd, pushStart_none]
                exact ⟨hpw0, hcnt0, hhoriz0, h.qb⟩

theorem invQ_runLoop (stream : Nat → Int) :
    ∀ (fuel t : Nat) (st : SimState), InvQ st → InvQ (runLoop stream fuel t st)
  | 0, _, _, h => h
  | fuel + 1, t, st, h => by
      unfold runLoop
      split
      · exact h
      next e rest hq =>
        by_cases h1 : MINUTES_IN_DAY < t
        · rw [if_pos h1]
          exact h
        · rw [if_neg h1]
          by_cases h2 : MINUTES_IN_DAY < e.time
          · rw [if_pos h2]
            have hsub : (st.trace ++ rest.map evKey).Sublist
                (st.trace ++ (e :: rest).map evKey) := by
              apply List.Sublist.append_left
              rw [List.map_cons]
              exact List.sublist_cons_self _ _
            constructor
            · apply List.Pairwise.sublist hsub
              rw [← hq]
              exact h.pw
            · intro x hx
              exact h.cnt x (hq ▸ List.mem_cons_of_mem e hx)
            · exact h.horiz
            · exact h.qb
          · rw [if_neg h2]
            exact invQ_runLoop stream fuel e.time _
              (invQ_step stream e rest st hq (Nat.le_of_not_lt h2) h)

theorem invQ_init (columns_info : List ColumnInfo) (clients_data : List InputClient) :
    InvQ (initState columns_info clients_data) := by
  have hseed := seed_invE clients_data ([], 0) (by simp) (by simp)
  constructor
  · simp only [initState, seedEvents]
    rw [List.nil_append]
    exact hseed.1
  · intro x hx
    exact hseed.2 x hx
  · intro x hx
    simp [initState] at hx
  · intro col hcol q hq
    rcases prepare_mem columns_info col hcol with ⟨h1, _, _, _⟩
    rw [h1] at hq
    simp at hq

theorem invQ_run (stream : Nat → Int) (columns_info : List ColumnInfo)
    (clients_data : List InputClient) (fuel : Nat) :
    InvQ (run_simulation stream columns_info clients_data fuel) :=
  invQ_runLoop stream fuel 0 _ (invQ_init columns_info clients_data)

theorem runLoop_break (stream : Nat → Int) (st : SimState) (e : Event)
    (rest : List Event) (t fuel : Nat) (hq : st.eventQueue = e :: rest)
    (ht : t ≤ MINUTES_IN_DAY) (he : MINUTES_IN_DAY < e.time) :
    runLoop stream (fuel + 1) t st =
      { st with eventQueue := rest, overflow := st.overflow ++ [e] } := by
  obtain ⟨cols, stats, qE, cnt, rng, arr, trc, log, ov⟩ := st
  simp only [] at hq
  subst hq
  unfold runLoop
  simp only []
  rw [if_neg (by omega), if_pos he]

/-- C8: in every run the processed-event trace is strictly increasing in
the lexicographic `(time, counter)` order — times are non-decreasing and
equal-time events are processed in increasing insertion-sequence order —
every processed event's time is within the daily horizon, and popping an
event beyond the horizon ends the run at once, discarding it (to the
ghost overflow) without touching columns, counters, or anything else. -/
theorem claim_C8 (stream : Nat → Int) (info : List ColumnInfo)
    (clients : List InputClient) (fuel : Nat) :
    (List.Pairwise traceLt (run_simulation stream info clients fuel).trace ∧
     ∀ x ∈ (run_simulation stream info clients fuel).trace,
       x.time ≤ MINUTES_IN_DAY) ∧
    (∀ (st : SimState) (e : Event) (rest : List Event) (t fuel2 : Nat),
       st.eventQueue = e :: rest → t ≤ MINUTES_IN_DAY → MINUTES_IN_DAY < e.time →
       runLoop stream (fuel2 + 1) t st =
         { st with eventQueue := rest, overflow := st.overflow ++ [e] }) := by
  constructor
  · have h := invQ_run stream info clients fuel
    exact ⟨(List.pairwise_append.1 h.pw).1, h.horiz⟩
  · intro st e rest t fuel2 hq ht he
    exact runLoop_break stream st e rest t fuel2 hq ht he

/-- C8, witness: the concrete two-request run has a sorted trace, and on
`lateState` one loop iteration discards the beyond-horizon event without
mutating anything else. -/
theorem claim_C8_witness :
    List.Pairwise traceLt
      (run_simulation streamZero oneColumn [clientAt0, clientAt0] 10).trace ∧
    runLoop streamZero 1 0 lateState =
      { lateState with eventQueue := [], overflow := lateState.overflow ++ [lateEvent] } :=
  ⟨(claim_C8 streamZero oneColumn [clientAt0, clientAt0] 10).1.1,
   (claim_C8 streamZero oneColumn [clientAt0, clientAt0] 10).2 lateState lateEvent [] 0 0
     rfl (by decide) (by decide)⟩

theorem getElem?_lt {α : Type} :
    ∀ (l : List α) (i : Nat) (a : α), l[i]? = some a → i < l.length
  | [], i, a, h => by simp at h
  | _ :: _, 0, _, _ => by simp
  | x :: xs, i + 1, a, h => by
      simp only [List.getElem?_cons_succ] at h
      have := getElem?_lt xs i a h
      simp only [List.length_cons]
      omega

theorem nodup_num_ne (cols : List Column) (hnd : (cols.map Column.number).Nodup)
    {i j : Nat} {ci cj : Column} (hi : cols[i]? = some ci) (hj : cols[j]? = some cj)
    (hne : i ≠ j) : ci.number ≠ cj.number := by
  have hmi : (cols.map Column.number)[i]? = some ci.number := by
    rw [List.getElem?_map, hi]
    rfl
  have hmj : (cols.map Column.number)[j]? = some cj.number := by
    rw [List.getElem?_map, hj]
    rfl
  intro heq
  rcases Nat.lt_or_ge i j with hij | hij
  · have hlen : j < (cols.map Column.number).length := by
      rw [List.length_map]
      exact getElem?_lt cols j cj hj
    apply (List.nodup_iff_getElem?_ne_getElem?.1 hnd) i j hij hlen
    rw [hmi, hmj, heq]
  · have hji : j < i := by omega
    have hlen : i < (cols.map Column.number).length := by
      rw [List.length_map]
      exact getElem?_lt cols i ci hi
    apply (List.nodup_iff_getElem?_ne_getElem?.1 hnd) j i hji hlen
    rw [hmi, hmj, heq]

theorem logFor_append_hit (n : Nat) (log : List SvcRec) (r : SvcRec)
    (h : r.column = n) : logFor n (log ++ [r]) = logFor n log ++ [r] := by
  unfold logFor
  rw [List.filter_append]
  simp [h]

theorem logFor_append_miss (n : Nat) (log : List SvcRec) (r : SvcRec)
    (h : r.column ≠ n) : logFor n (log ++ [r]) = logFor n log := by
  unfold logFor
  rw [List.filter_append]
  simp [h]

theorem chain'_append_singleton {l : List SvcRec} {a : SvcRec}
    (hc : List.Chain' (fun x y => x.finish ≤ y.start) l)
    (hall : ∀ x ∈ l, x.finish ≤ a.start) :
    List.Chain' (fun x y => x.finish ≤ y.start) (l ++ [a]) := by
  rw [List.chain'_append]
  refine ⟨hc, List.chain'_singleton a, ?_⟩
  intro x hx y hy
  simp only [List.head?_cons, Option.mem_def, Option.some.injEq] at hy
  rw [← hy]
  exact hall x (List.mem_of_mem_getLast? hx)

theorem invL_nodup_set (cols : List Column) (i : Nat) (col col' : Column)
    (hi : cols[i]? = some col) (hnum : col'.number = col.number)
    (hnd : (cols.map Column.number).Nodup) :
    ((cols.set i col').map Column.number).Nodup := by
  rw [List.map_set]
  have hmap : (cols.map Column.number)[i]? = some col.number := by
    rw [List.getElem?_map, hi]
    rfl
  rw [hnum, set_self _ i _ hmap]
  exact hnd

theorem invL_A (cols : List Column) (log : List SvcRec) (inv : InvL cols log)
    (i : Nat) (col col' : Column) (hi : cols[i]? = some col)
    (hnum : col'.number = col.number) (htf : col'.time_free = col.time_free) :
    InvL (cols.set i col') log := by
  refine ⟨invL_nodup_set cols i col col' hi hnum inv.nodup, ?_, ?_⟩
  · intro r hr
    rcases inv.covered r hr with ⟨j, colj, hj, hn⟩
    by_cases hij : j = i
    · subst hij
      have hcoljcol : col = colj := Option.some.inj (hi.symm.trans hj)
      refine ⟨j, col', List.getElem?_set_eq_of_lt col' (getElem?_lt cols j col hi), ?_⟩
      rw [hn, hnum, hcoljcol]
    · exact ⟨j, colj, by rw [List.getElem?_set_ne (fun h => hij h.symm)]; exact hj, hn⟩
  · intro k colk hk
    by_cases hik : k = i
    · subst hik
      have hkv : (cols.set k col')[k]? = some col' :=
        List.getElem?_set_eq_of_lt col' (getElem?_lt cols k col hi)
      have hcolk : colk = col' := (Option.some.inj (hkv.symm.trans hk)).symm
      subst hcolk
      rw [hnum, htf]
      exact inv.chain k col hi
    · rw [List.getElem?_set_ne (fun h => hik h.symm)] at hk
      exact inv.chain k colk hk

theorem invL_B (cols : List Column) (log : List SvcRec) (inv : InvL cols log)
    (i : Nat) (col colb : Column) (t : Nat)
    (hi : cols[i]? = some col) (hnum : colb.number = col.number)
    (htf : colb.time_free = col.time_free)
    (col2 : Column) (rr : StartResult)
    (hss : start_service colb t = (col2, some rr)) :
    InvL (cols.set i col2)
      (log ++ [{ column := rr.column, start := rr.start, finish := rr.time }]) := by
  cases hqe : colb.queue with
  | nil =>
      exfalso
      rw [start_service_of_empty _ _ hqe] at hss
      have := congrArg Prod.snd hss
      simp at this
  | cons q0 rq =>
      cases hcc : colb.current_client with
      | some cl =>
          exfalso
          rw [start_service_of_busy _ _ cl hcc] at hss
          have := congrArg Prod.snd hss
          simp at this
      | none =>
          obtain ⟨col2x, rrx, hssx, f1, f2, f3, f4, f5, f6, f7, f8, f9, f10, f11, f12⟩ :=
            start_ready_facts colb t hcc q0 rq hqe
          rw [hssx] at hss
          have hc2 : col2 = col2x := by
            have hfst := congrArg Prod.fst hss
            simpa using hfst.symm
          have hrr : rr = rrx := by
            have hsnd := congrArg Prod.snd hss
            simpa using hsnd.symm
          subst hc2
          subst hrr
          have hrcol : rr.column = col.number := by rw [f10, hnum]
          have hc2num : col2.number = col.number := by rw [f5, hnum]
          have hc2tf : col2.time_free = rr.time := by rw [f6, f7]
          have hstart : col.time_free ≤ rr.start := by rw [← htf]; exact f12
          have hsf : rr.start ≤ rr.time := by
            rw [f7, f8]
            omega
          refine ⟨invL_nodup_set cols i col col2 hi hc2num inv.nodup, ?_, ?_⟩
          · intro r hr
            rcases List.mem_append.1 hr with hr | hr
            · rcases inv.covered r hr with ⟨j, colj, hj, hn⟩
              by_cases hij : j = i
              · subst hij
                have hcoljcol : col = colj := Option.some.inj (hi.symm.trans hj)
                refine ⟨j, col2, List.getElem?_set_eq_of_lt col2 (getElem?_lt cols j col hi), ?_⟩
                rw [hn, hc2num, hcoljcol]
              · exact ⟨j, colj, by rw [List.getElem?_set_ne (fun h => hij h.symm)]; exact hj, hn⟩
            · simp only [List.mem_singleton] at hr
              subst hr
              refine ⟨i, col2, List.getElem?_set_eq_of_lt col2 (getElem?_lt cols i col hi), ?_⟩
              simp only []
              rw [hrcol, hc2num]
          · intro k colk hk
            by_cases hik : k = i
            · subst hik
              have hkv : (cols.set k col2)[k]? = some col2 :=
                List.getElem?_set_eq_of_lt col2 (getElem?_lt cols k col hi)
              have hcolk : colk = col2 := (Option.some.inj (hkv.symm.trans hk)).symm
              subst hcolk
              have hold := inv.chain k col hi
              rw [hc2num]
              have hentry : ({ column := rr.column, start := rr.start, finish := rr.time } :
                  SvcRec).column = col.number := hrcol
              rw [logFor_append_hit col.number log _ hentry]
              constructor
              · apply chain'_append_singleton hold.1
                intro x hx
                have := hold.2 x hx
                simp only []
                omega
              · intro r hrm
                rcases List.mem_append.1 hrm with hrm | hrm
                · have := hold.2 r hrm
                  rw [hc2tf]
                  omega
                · simp only [List.mem_singleton] at hrm
                  subst hrm
                  simp only []
                  rw [hc2tf]
            · rw [List.getElem?_set_ne (fun h => hik h.symm)] at hk
              have hold := inv.chain k colk hk
              have hne : ({ column := rr.column, start := rr.start, finish := rr.time } :
                  SvcRec).column ≠ colk.number := by
                simp only []
                rw [hrcol]
                intro h
                exact nodup_num_ne cols inv.nodup hi hk (fun hh => hik hh.symm) h
              rw [logFor_append_miss colk.number log _ hne]
              exact hold

theorem invL_rescanSteps (t : Nat) :
    ∀ (n i : Nat) (st : SimState), InvL st.columns st.svcLog →
      InvL (rescanSteps t n i st).columns (rescanSteps t n i st).svcLog
  | 0, _, _, h => h
  | n + 1, i, st, h => by
      unfold rescanSteps
      split
      · exact h
      next col hi =>
        by_cases hg : col.current_client = none ∧ col.queue ≠ []
        · rw [if_pos hg]
          simp only []
          rcases hg with ⟨hc, hq⟩
          cases hqe : col.queue with
          | nil => exact absurd hqe hq
          | cons q0 rq =>
            obtain ⟨col2, rr, hss, f1, f2, f3, f4, f5, f6, f7, f8, f9, f10, f11, f12⟩ :=
              start_ready_facts col t hc q0 rq hqe
            rw [hss]
            simp only [pushStart_some]
            apply invL_rescanSteps t n (i + 1)
            exact invL_B st.columns st.svcLog h i col col t hi rfl rfl col2 rr hss
        · rw [if_neg hg]
          exact invL_rescanSteps t n (i + 1) st h

theorem invL_processEvent (stream : Nat → Int) (tcur : Nat) (d : EData) (st : SimState)
    (h : InvL st.columns st.svcLog) :
    InvL (processEvent stream tcur d st).columns
      (processEvent stream tcur d st).svcLog := by
  cases d with
  | arrival c =>
      simp only [processEvent]
      cases hfb : find_best_column st.columns c.fuel_type with
      | none =>
          have hpa := process_arrival_none c st.columns tcur st.stats (stream st.rngIdx) hfb
          simp only [hpa, pushStart_none]
          unfold rescan
          apply invL_rescanSteps
          exact h
      | some p =>
          obtain ⟨i, best⟩ := p
          have hi := (find_best_spec st.columns c.fuel_type i best hfb).1
          have hpa := process_arrival_some c st.columns tcur st.stats (stream st.rngIdx) i best hfb
          obtain ⟨ha1, ha2, ha3, ha4, ha5, ha6, ha7⟩ :=
            admit_facts best c tcur (stream st.rngIdx)
          by_cases hcond : (admitColumn best c tcur (stream st.rngIdx)).current_client = none ∧
              (admitColumn best c tcur (stream st.rngIdx)).time_free ≤ tcur
          · rw [if_pos hcond] at hpa
            have hqne : (admitColumn best c tcur (stream st.rngIdx)).queue ≠ [] := by
              rw [ha7]
              simp
            obtain ⟨q0, rq, hq0⟩ := List.exists_cons_of_ne_nil hqne
            obtain ⟨col2, rr, hss, f1, f2, f3, f4, f5, f6, f7, f8, f9, f10, f11, f12⟩ :=
              start_ready_facts _ tcur hcond.1 q0 rq hq0
            rw [hss] at hpa
            simp only [hpa, pushStart_some]
            unfold rescan
            apply invL_rescanSteps
            exact invL_B st.columns st.svcLog h i best
              (admitColumn best c tcur (stream st.rngIdx)) tcur hi ha4 ha6 col2 rr hss
          · rw [if_neg hcond] at hpa
            simp only [hpa, pushStart_none]
            unfold rescan
            apply invL_rescanSteps
            exact invL_A st.columns st.svcLog h i best
              (admitColumn best c tcur (stream st.rngIdx)) hi ha4 ha6
  | departure n cl =>
      simp only [processEvent]
      cases hfn : findByNumber n st.columns 0 with
      | none =>
          have hpd := process_departure_nofind n cl st.columns tcur st.stats hfn
          simp only [hpd, pushStart_none]
          exact h
      | some p =>
          obtain ⟨i, col⟩ := p
          have hspec := findByNumber_spec n st.columns 0 i col hfn
          have hi : st.columns[i]? = some col := by simpa using hspec.2.1
          cases hcc : col.current_client with
          | none =>
              have hpd := process_departure_idle n cl st.columns tcur st.stats i col hfn hcc
              simp only [hpd, pushStart_none]
              exact h
          | some cur =>
              by_cases hmatch : cur.arrival_minutes = cl.arrival_minutes ∧
                  cur.amount = cl.amount ∧ cur.fuel_type = cl.fuel_type
              · have hpd := process_departure_match n cl st.columns tcur st.stats i col cur
                  hfn hcc hmatch
                by_cases hqe : ({ col with current_client := none } : Column).queue.isEmpty
                · rw [if_pos hqe] at hpd
                  simp only [hpd, pushStart_none]
                  exact invL_A st.columns st.svcLog h i col
                    { col with current_client := none } hi rfl rfl
                · rw [if_neg hqe] at hpd
                  have hqene : ({ col with current_client := none } : Column).queue ≠ [] := by
                    simpa [List.isEmpty_iff] using hqe
                  obtain ⟨q0, rq, hq0⟩ := List.exists_cons_of_ne_nil hqene
                  obtain ⟨col2, rr, hss, f1, f2, f3, f4, f5, f6, f7, f8, f9, f10, f11, f12⟩ :=
                    start_ready_facts { col with current_client := none } tcur rfl q0 rq hq0
                  rw [hss] at hpd
                  simp only [hpd, pushStart_some]
                  exact invL_B st.columns st.svcLog h i col
                    { col with current_client := none } tcur hi rfl rfl col2 rr hss
              · have hpd := process_departure_mismatch n cl st.columns tcur st.stats i col cur
                  hfn hcc hmatch
                simp only [hpd, pushStart_none]
                exact h

theorem invL_runLoop (stream : Nat → Int) :
    ∀ (fuel t : Nat) (st : SimState), InvL st.columns st.svcLog →
      InvL (runLoop stream fuel t st).columns (runLoop stream fuel t st).svcLog
  | 0, _, _, h => h
  | fuel + 1, t, st, h => by
      unfold runLoop
      split
      · exact h
      next e rest hq =>
        by_cases h1 : MINUTES_IN_DAY < t
        · rw [if_pos h1]
          exact h
        · rw [if_neg h1]
          by_cases h2 : MINUTES_IN_DAY < e.time
          · rw [if_pos h2]
            exact h
          · rw [if_neg h2]
            exact invL_runLoop stream fuel e.time _
              (invL_processEvent stream e.time e.data _ h)

theorem invL_init (columns_info : List ColumnInfo) (clients_data : List InputClient)
    (hnd : ((prepare_columns_data columns_info).map Column.number).Nodup) :
    InvL (initState columns_info clients_data).columns
      (initState columns_info clients_data).svcLog := by
  refine ⟨hnd, ?_, ?_⟩
  · intro r hr
    simp [initState] at hr
  · intro i col hi
    constructor
    · exact List.chain'_nil
    · intro r hr
      simp [initState, logFor] at hr

/-- C7: a column that is already serving refuses to start another
service (the in-service slot holds at most one request), and — for
resource definitions with pairwise distinct identifiers — the logged
service intervals of each resource are chained: every service on a
resource starts no earlier than the previous one finished, so intervals
never overlap. -/
theorem claim_C7 (stream : Nat → Int) (info : List ColumnInfo)
    (clients : List InputClient) (fuel : Nat)
    (hnd : ((prepare_columns_data info).map Column.number).Nodup) :
    (∀ (col : Column) (t : Nat) (cl : QueueClient), col.current_client = some cl →
        start_service col t = (col, none)) ∧
    (∀ n : Nat, List.Chain' (fun a b => a.finish ≤ b.start)
        (logFor n (run_simulation stream info clients fuel).svcLog)) := by
  constructor
  · intro col t cl hcl
    exact start_service_of_busy col t cl hcl
  · intro n
    have hinv : InvL (run_simulation stream info clients fuel).columns
        (run_simulation stream info clients fuel).svcLog :=
      invL_runLoop stream fuel 0 _ (invL_init info clients hnd)
    by_cases hex : ∃ (j : Nat) (colj : Column),
        (run_simulation stream info clients fuel).columns[j]? = some colj ∧
        colj.number = n
    · rcases hex with ⟨j, colj, hj, hn⟩
      have := (hinv.chain j colj hj).1
      rw [hn] at this
      exact this
    · have hnil : logFor n (run_simulation stream info clients fuel).svcLog = [] := by
        unfold logFor
        rw [List.filter_eq_nil_iff]
        intro r hr
        simp only [decide_eq_true_eq]
        intro hcol
        rcases hinv.covered r hr with ⟨j, colj, hj, hrn⟩
        exact hex ⟨j, colj, hj, by rw [← hrn, hcol]⟩
      rw [hnil]
      exact List.chain'_nil

/-- C7, witness: a busy column refuses a second service, and the chained
property holds concretely for column 1 of the two-request run. -/
theorem claim_C7_witness :
    start_service dupColumn 1 = (dupColumn, none) ∧
    List.Chain' (fun a b => a.finish ≤ b.start)
      (logFor 1 (run_simulation streamZero oneColumn [clientAt0, clientAt0] 10).svcLog) :=
  ⟨(claim_C7 streamZero oneColumn [clientAt0, clientAt0] 10 (by decide)).1
      dupColumn 1 dupClient rfl,
   (claim_C7 streamZero oneColumn [clientAt0, clientAt0] 10 (by decide)).2 1⟩

end GasStation
